import Mathlib

/-!
# oui2manuf: the OUI registry loader and the MAC-address resolver

A shallow embedding of `ouidb/ouidb.go` (functions `normalizeMACPrefix`,
`UpdateDatabase`, `Lookup`) together with the parts of the Go standard library
they call (`strings`, `unicode/utf8`, `bufio.Scanner`), followed by theorems
about the embedded functions.

Conventions of the embedding:

* a Go `string` is the list of its bytes, a byte being a natural number below 256;
* a Go `rune` is a natural number (the code point);
* a run-time panic (index or slice out of range) is an explicit outcome;
* the global `ouiData` and the file system are fields of an explicit `World`.
-/

set_option autoImplicit false

namespace OuiDb

/-! ## Strings, bytes and runes -/

/-- Go `string`: an immutable sequence of bytes, each byte a natural number below 256.
Runes (Unicode code points) are natural numbers as well. -/
abbrev GoString := List Nat

/-- Constant `utf8.RuneError`, the replacement character U+FFFD. -/
def RuneError : Nat := 0xFFFD

/-- Constant `utf8.RuneSelf`: bytes below it are single-byte runes. -/
def RuneSelf : Nat := 0x80

/-- Function `utf8.AppendRune` on an empty buffer: the UTF-8 encoding of a rune, with
surrogates and out-of-range values encoded as `RuneError`. -/
def encodeRune (r : Nat) : GoString :=
  if r < RuneSelf then [r]
  else if r ≤ 0x7FF then [0xC0 ||| (r >>> 6), 0x80 ||| (r &&& 0x3F)]
  else if 0x10FFFF < r ∨ (0xD800 ≤ r ∧ r ≤ 0xDFFF) then [0xEF, 0xBF, 0xBD]
  else if r ≤ 0xFFFF then
    [0xE0 ||| (r >>> 12), 0x80 ||| ((r >>> 6) &&& 0x3F), 0x80 ||| (r &&& 0x3F)]
  else
    [0xF0 ||| (r >>> 18), 0x80 ||| ((r >>> 12) &&& 0x3F), 0x80 ||| ((r >>> 6) &&& 0x3F),
      0x80 ||| (r &&& 0x3F)]

/-- A Lean string literal as a Go string (its UTF-8 bytes). -/
def str (s : String) : GoString :=
  s.toList.flatMap (fun c => encodeRune c.toNat)

/-- Go conversion `string(b)` of a byte `b`: the byte is read as a rune and encoded in
UTF-8, so a byte below `0x80` gives the one-byte string holding it. -/
def stringOfByte (b : Nat) : GoString :=
  encodeRune b

/-- Entry of the `first` table of `unicode/utf8` for a lead byte at or above `0x80`:
`none` for an invalid lead byte, otherwise the length of the sequence and the
accepted range of its second byte. -/
def leadInfo (s0 : Nat) : Option (Nat × Nat × Nat) :=
  if s0 < 0xC2 then none
  else if s0 ≤ 0xDF then some (2, 0x80, 0xBF)
  else if s0 = 0xE0 then some (3, 0xA0, 0xBF)
  else if s0 ≤ 0xEC then some (3, 0x80, 0xBF)
  else if s0 = 0xED then some (3, 0x80, 0x9F)
  else if s0 ≤ 0xEF then some (3, 0x80, 0xBF)
  else if s0 = 0xF0 then some (4, 0x90, 0xBF)
  else if s0 ≤ 0xF3 then some (4, 0x80, 0xBF)
  else if s0 = 0xF4 then some (4, 0x80, 0x8F)
  else none

/-- Function `utf8.DecodeRuneInString`: the first rune of `s` and its width in bytes;
`(RuneError, 0)` for the empty string and `(RuneError, 1)` for an invalid encoding. -/
def DecodeRuneInString (s : GoString) : Nat × Nat :=
  match s with
  | [] => (RuneError, 0)
  | s0 :: _ =>
    if s0 < RuneSelf then (s0, 1)
    else
      match leadInfo s0 with
      | none => (RuneError, 1)
      | some (sz, lo, hi) =>
        if s.length < sz then (RuneError, 1)
        else
          let s1 := s.getD 1 0
          if s1 < lo ∨ hi < s1 then (RuneError, 1)
          else if sz ≤ 2 then (((s0 &&& 0x1F) <<< 6) ||| (s1 &&& 0x3F), 2)
          else
            let s2 := s.getD 2 0
            if s2 < 0x80 ∨ 0xBF < s2 then (RuneError, 1)
            else if sz ≤ 3 then
              (((s0 &&& 0x0F) <<< 12) ||| ((s1 &&& 0x3F) <<< 6) ||| (s2 &&& 0x3F), 3)
            else
              let s3 := s.getD 3 0
              if s3 < 0x80 ∨ 0xBF < s3 then (RuneError, 1)
              else
                (((s0 &&& 0x07) <<< 18) ||| ((s1 &&& 0x3F) <<< 12) ||| ((s2 &&& 0x3F) <<< 6)
                  ||| (s3 &&& 0x3F), 4)

/-- Loop of `strings.Map`: every rune of `s` (an invalid byte counting as `RuneError`)
is replaced by the encoding of its image. The first argument bounds the number of
runes; `Map` passes the length of the string. -/
def mapRunes (mapping : Nat → Nat) : Nat → GoString → GoString
  | 0, _ => []
  | fuel + 1, s =>
    match s with
    | [] => []
    | _ :: _ =>
      encodeRune (mapping (DecodeRuneInString s).1)
        ++ mapRunes mapping fuel (s.drop (DecodeRuneInString s).2)

/-- Function `strings.Map` for a mapping that drops no rune: a copy of `s` with all its
characters modified according to the mapping function. -/
def Map (mapping : Nat → Nat) (s : GoString) : GoString :=
  mapRunes mapping s.length s

/-- ASCII upper-casing of one byte: `c -= 'a' - 'A'` for `'a' ≤ c ≤ 'z'`. -/
def upperASCII (c : Nat) : Nat :=
  if 0x61 ≤ c ∧ c ≤ 0x7A then c - 0x20 else c

/-- Function `unicode.ToUpper`: ASCII runes are mapped directly, every other rune goes
through the Unicode case tables, which are the parameter `caseTable`. -/
def unicodeToUpper (caseTable : Nat → Nat) (r : Nat) : Nat :=
  if r ≤ 0x7F then upperASCII r else caseTable r

/-- Function `strings.ToUpper`: an ASCII-only string is upper-cased byte by byte, any
other string goes through `Map(unicode.ToUpper, s)`. -/
def ToUpper (caseTable : Nat → Nat) (s : GoString) : GoString :=
  if s.all (fun c => decide (c < RuneSelf)) then s.map upperASCII
  else Map (unicodeToUpper caseTable) s

/-- Function `strings.Contains(s, sep)` for a one-byte separator. -/
def Contains (s : GoString) (sep : Nat) : Bool :=
  s.contains sep

/-- Loop of `strings.Split` for a one-byte separator: `cur` is the piece being read. -/
def splitGo (sep : Nat) : GoString → GoString → List GoString
  | [], cur => [cur]
  | c :: rest, cur =>
    if c = sep then cur :: splitGo sep rest [] else splitGo sep rest (cur ++ [c])

/-- Function `strings.Split(s, sep)` for a one-byte separator: the pieces of `s` between
the separators, empty pieces included; never the empty list. -/
def Split (s : GoString) (sep : Nat) : List GoString :=
  splitGo sep s []

/-- Function `strings.Join(elems, sep)`. -/
def Join (elems : List GoString) (sep : GoString) : GoString :=
  match elems with
  | [] => []
  | [e] => e
  | e :: rest => e ++ sep ++ Join rest sep

/-- Call `fmt.Sprintf("%s:%s", a, b)`. -/
def sprintfColon (a b : GoString) : GoString :=
  a ++ str ":" ++ b

/-- Function `strings.HasPrefix`. -/
def HasPrefix (s pre : GoString) : Bool :=
  pre.isPrefixOf s

/-- Go slice expression `xs[:n]`; `none` is the out-of-range panic. -/
def sliceTo {α : Type} (xs : List α) (n : Nat) : Option (List α) :=
  if n ≤ xs.length then some (xs.take n) else none

/-- The byte `'/'`. -/
def slash : Nat := 0x2F

/-- The byte `':'`. -/
def colon : Nat := 0x3A

/-! ## normalizeMACPrefix -/

/-- Go function `normalizeMACPrefix`; `none` is a run-time panic (slice bound or index
out of range). -/
def normalizeMACPrefix (macPrefix : GoString) : Option GoString :=
  if Contains macPrefix slash then do
    let parts := Split macPrefix slash
    let mac ← parts[0]?
    let bits ← parts[1]?
    let macParts := Split mac colon
    if bits = str "28" then do
      let hd ← sliceTo macParts 3
      let seg ← macParts[3]?
      let c ← seg[0]?
      pure (sprintfColon (Join hd (str ":")) (stringOfByte c))
    else if bits = str "36" then do
      let hd ← sliceTo macParts 4
      let seg ← macParts[4]?
      let c ← seg[0]?
      pure (sprintfColon (Join hd (str ":")) (stringOfByte c))
    else
      pure mac
  else
    some macPrefix

/-! ## White space: `strings.Fields` and `strings.TrimSpace` -/

/-- Table `asciiSpace` of package `strings`: tab, line feed, vertical tab, form feed,
carriage return and space. -/
def asciiSpace (c : Nat) : Bool :=
  c = 0x09 || c = 0x0A || c = 0x0B || c = 0x0C || c = 0x0D || c = 0x20

/-- Function `unicode.IsSpace`. -/
def unicodeIsSpace (r : Nat) : Bool :=
  if r ≤ 0xFF then
    r = 0x09 || r = 0x0A || r = 0x0B || r = 0x0C || r = 0x0D || r = 0x20 || r = 0x85
      || r = 0xA0
  else
    r = 0x1680 || (decide (0x2000 ≤ r) && decide (r ≤ 0x200A)) || r = 0x2028 || r = 0x2029
      || r = 0x202F || r = 0x205F || r = 0x3000

/-- ASCII fast path of `strings.Fields`: `cur` is the field being read. -/
def fieldsASCII : GoString → GoString → List GoString
  | [], cur => if cur = [] then [] else [cur]
  | c :: rest, cur =>
    if asciiSpace c then
      if cur = [] then fieldsASCII rest [] else cur :: fieldsASCII rest []
    else fieldsASCII rest (cur ++ [c])

/-- Loop of `strings.FieldsFunc`: the runes of `s` are read in turn, `cur` is the field
being read, the first argument bounds the number of runes. -/
def fieldsFuncGo (f : Nat → Bool) : Nat → GoString → GoString → List GoString
  | 0, _, cur => if cur = [] then [] else [cur]
  | fuel + 1, s, cur =>
    match s with
    | [] => if cur = [] then [] else [cur]
    | _ :: _ =>
      if f (DecodeRuneInString s).1 then
        if cur = [] then fieldsFuncGo f fuel (s.drop (DecodeRuneInString s).2) []
        else cur :: fieldsFuncGo f fuel (s.drop (DecodeRuneInString s).2) []
      else
        fieldsFuncGo f fuel (s.drop (DecodeRuneInString s).2)
          (cur ++ s.take (DecodeRuneInString s).2)

/-- Function `strings.FieldsFunc`. -/
def FieldsFunc (s : GoString) (f : Nat → Bool) : List GoString :=
  fieldsFuncGo f s.length s []

/-- Function `strings.Fields`: the maximal runs of non-space characters of `s`. -/
def Fields (s : GoString) : List GoString :=
  if s.all (fun c => decide (c < RuneSelf)) then fieldsASCII s []
  else FieldsFunc s unicodeIsSpace

/-- Function `utf8.RuneStart`: the byte is not a continuation byte. -/
def RuneStart (b : Nat) : Bool :=
  b &&& 0xC0 != 0x80

/-- Backward search of `utf8.DecodeLastRuneInString` for the start of the last rune:
`pos - 1` is the next index tried, the search stops below `lim`. -/
def lastRuneStart (s : GoString) (lim : Nat) : Nat → Nat → Nat
  | 0, pos => pos - 1
  | fuel + 1, pos =>
    if pos ≤ lim then pos - 1
    else if RuneStart (s.getD (pos - 1) 0) then pos - 1
    else lastRuneStart s lim fuel (pos - 1)

/-- Function `utf8.DecodeLastRuneInString`: the last rune of `s` and its width. -/
def DecodeLastRuneInString (s : GoString) : Nat × Nat :=
  if s.length = 0 then (RuneError, 0)
  else if s.getD (s.length - 1) 0 < RuneSelf then (s.getD (s.length - 1) 0, 1)
  else
    let start := lastRuneStart s (s.length - 4) 4 (s.length - 1)
    if start + (DecodeRuneInString (s.drop start)).2 ≠ s.length then (RuneError, 1)
    else DecodeRuneInString (s.drop start)

/-- Loop of `strings.TrimLeftFunc`: drop the leading runes that satisfy `f`. -/
def trimLeftGo (f : Nat → Bool) : Nat → GoString → GoString
  | 0, _ => []
  | fuel + 1, s =>
    match s with
    | [] => []
    | _ :: _ =>
      if f (DecodeRuneInString s).1 then trimLeftGo f fuel (s.drop (DecodeRuneInString s).2)
      else s

/-- Loop of `strings.TrimRightFunc`: `s[0:stop]` is what is left to examine; once the last
rune that does not satisfy `f` is found at index `i`, the result ends after that rune. -/
def trimRightGo (f : Nat → Bool) (s : GoString) : Nat → Nat → GoString
  | 0, _ => []
  | fuel + 1, stop =>
    if stop = 0 then []
    else
      let i := stop - (DecodeLastRuneInString (s.take stop)).2
      if f (DecodeLastRuneInString (s.take stop)).1 then trimRightGo f s fuel i
      else if RuneSelf ≤ s.getD i 0 then s.take (i + (DecodeRuneInString (s.drop i)).2)
      else s.take (i + 1)

/-- Function `strings.TrimRightFunc`. -/
def TrimRightFunc (s : GoString) (f : Nat → Bool) : GoString :=
  trimRightGo f s s.length s.length

/-- Function `strings.TrimFunc`. -/
def TrimFunc (s : GoString) (f : Nat → Bool) : GoString :=
  TrimRightFunc (trimLeftGo f s.length s) f

/-- Function `strings.TrimSpace`: ASCII white space is skipped at both ends byte by
byte, and the Unicode-aware trimming takes over at the first non-ASCII byte met. -/
def TrimSpace (s : GoString) : GoString :=
  match s.dropWhile asciiSpace with
  | [] => []
  | c :: t =>
    if RuneSelf ≤ c then TrimFunc (c :: t) unicodeIsSpace
    else
      match ((c :: t).reverse.dropWhile asciiSpace) with
      | [] => []
      | d :: u =>
        if RuneSelf ≤ d then TrimRightFunc (d :: u).reverse unicodeIsSpace
        else (d :: u).reverse

/-! ## The registry mapping -/

/-- Go `map[string]string`, kept as a list of entries with pairwise distinct keys. -/
structure Mapping where
  /-- The entries, oldest key first. -/
  entries : List (GoString × GoString)
  deriving DecidableEq

/-- Go `make(map[string]string)`. -/
def Mapping.empty : Mapping := ⟨[]⟩

/-- Search of a key in the entries. -/
def lookupEntries (k : GoString) : List (GoString × GoString) → Option GoString
  | [] => none
  | (k', v) :: rest => if k' = k then some v else lookupEntries k rest

/-- Go `val, ok := m[k]`: `some val` when `ok`. -/
def Mapping.get (m : Mapping) (k : GoString) : Option GoString :=
  lookupEntries k m.entries

/-- Replacement or addition of an entry. -/
def setEntries (k v : GoString) : List (GoString × GoString) → List (GoString × GoString)
  | [] => [(k, v)]
  | (k', v') :: rest => if k' = k then (k, v) :: rest else (k', v') :: setEntries k v rest

/-- Go `m[k] = v`. -/
def Mapping.set (m : Mapping) (k v : GoString) : Mapping :=
  ⟨setEntries k v m.entries⟩

/-- Go `len(m)`. -/
def Mapping.len (m : Mapping) : Nat :=
  m.entries.length

/-! ## Files and `bufio.Scanner` -/

/-- What reading a file yields: the bytes delivered, and whether the read that follows
them reports an I/O error instead of the end of the file. -/
structure FileContent where
  /-- The bytes read before the end or the error. -/
  data : GoString
  /-- The stream ends with a read error. -/
  readFails : Bool
  deriving DecidableEq

/-- The files that `os.Open` can open, by path. -/
abbrev FileSystem := GoString → Option FileContent

/-- Constant `bufio.MaxScanTokenSize`: a line of that many bytes does not fit the buffer. -/
def MaxScanTokenSize : Nat := 64 * 1024

/-- Helper `dropCR` of `bufio`: drop one trailing carriage return. -/
def dropCR (data : GoString) : GoString :=
  if data.getLast? = some 0x0D then data.dropLast else data

/-- Successive calls of `scanner.Scan()` with the split function `bufio.ScanLines`:
the tokens returned, and whether the scan stopped on `bufio.ErrTooLong`. `cur` is the
line being read. -/
def scanGo : GoString → GoString → List GoString × Bool
  | [], cur =>
    if cur = [] then ([], false)
    else if MaxScanTokenSize ≤ cur.length then ([], true)
    else ([dropCR cur], false)
  | c :: rest, cur =>
    if c = 0x0A then
      if MaxScanTokenSize ≤ cur.length then ([], true)
      else (dropCR cur :: (scanGo rest []).1, (scanGo rest []).2)
    else scanGo rest (cur ++ [c])

/-- The lines that `scanner.Text()` returns for a file, in order. -/
def scanLines (f : FileContent) : List GoString :=
  (scanGo f.data []).1

/-- Whether `scanner.Err()` is non-nil after the loop: a line too long for the buffer, or
a read error of the underlying file. -/
def scanErr (f : FileContent) : Bool :=
  (scanGo f.data []).2 || f.readFails

/-! ## UpdateDatabase -/

/-- Errors returned by the package. -/
inductive GoError where
  /-- Error "failed to open manuf file". -/
  | openFailed
  /-- Error "error reading file". -/
  | readFailed
  /-- Any error returned by `downloadManufDB`. -/
  | downloadFailed
  /-- Error "Error in doenloading data file", returned by `Lookup`. -/
  | downloadReported
  /-- Error "Manufacturer not found in any block." -/
  | notFound
  deriving DecidableEq

/-- How a call ends: a returned value, a returned error, or a run-time panic. -/
inductive Outcome (α : Type) where
  /-- The call returns a value and a nil error. -/
  | ok (val : α)
  /-- The call returns a non-nil error. -/
  | error (e : GoError)
  /-- The call panics. -/
  | crash
  deriving DecidableEq

/-- Body of the scan loop of `UpdateDatabase` for one line, on the mapping built so
far; `none` is a panic raised by `normalizeMACPrefix`. -/
def loadLine (ouiData : Mapping) (line : GoString) : Option Mapping :=
  if HasPrefix line (str "#") || TrimSpace line = [] then some ouiData
  else
    let parts := Fields line
    if parts.length < 2 then some ouiData
    else do
      let macPrefix ← parts[0]?
      let shortName ← parts[1]?
      let normPrefix ← normalizeMACPrefix macPrefix
      pure (ouiData.set normPrefix shortName)

/-- The scan loop of `UpdateDatabase`: the mapping after the lines, and whether a line
made the loop panic (the mapping is then the one built before that line). -/
def loadLines : Mapping → List GoString → Mapping × Bool
  | ouiData, [] => (ouiData, false)
  | ouiData, line :: rest =>
    match loadLine ouiData line with
    | none => (ouiData, true)
    | some next => loadLines next rest

/-- The global state of the package and the file system around it. -/
structure World where
  /-- Package variable `ouiData`. -/
  ouiData : Mapping
  /-- The files that can be opened. -/
  files : FileSystem

/-- Go function `UpdateDatabase`: its outcome and the world it leaves. -/
def UpdateDatabase (w : World) (ouiFile : GoString) : Outcome Unit × World :=
  match w.files ouiFile with
  | none => (.error .openFailed, w)
  | some file =>
    let loaded := loadLines Mapping.empty (scanLines file)
    if loaded.2 then (.crash, { w with ouiData := loaded.1 })
    else if scanErr file then (.error .readFailed, { w with ouiData := loaded.1 })
    else (.ok (), { w with ouiData := loaded.1 })

/-! ## Lookup -/

/-- Pattern `if val, ok := ouiData[key]; ok { return val, nil }` followed by the rest
of the function: `none` for the key is a panic while building it. -/
def probe (ouiData : Mapping) (key : Option GoString) (rest : Outcome GoString) :
    Outcome GoString :=
  match key with
  | none => .crash
  | some k =>
    match ouiData.get k with
    | some val => .ok val
    | none => rest

/-- Expression `fmt.Sprintf("%s:%s", strings.Join(parts[:4], ":"), parts[4][:1])`. -/
def key36 (parts : List GoString) : Option GoString := do
  let hd ← sliceTo parts 4
  let seg ← parts[4]?
  let c ← sliceTo seg 1
  pure (sprintfColon (Join hd (str ":")) c)

/-- Expression `fmt.Sprintf("%s:%s", strings.Join(parts[:3], ":"), parts[3][:1])`. -/
def key28 (parts : List GoString) : Option GoString := do
  let hd ← sliceTo parts 3
  let seg ← parts[3]?
  let c ← sliceTo seg 1
  pure (sprintfColon (Join hd (str ":")) c)

/-- Expression `strings.Join(parts[:3], ":")`. -/
def key24 (parts : List GoString) : Option GoString := do
  let hd ← sliceTo parts 3
  pure (Join hd (str ":"))

/-- The segments that `Lookup` derives from the address: upper-case, split on `':'`,
empty parts filtered out. -/
def segments (caseTable : Nat → Nat) (mac : GoString) : List GoString :=
  (Split (ToUpper caseTable mac) colon).filter (fun p => decide (p ≠ []))

/-- The resolution step of `Lookup` (from `strings.ToUpper` to the final `return`), on
the mapping held in `ouiData`. -/
def resolve (caseTable : Nat → Nat) (ouiData : Mapping) (mac : GoString) :
    Outcome GoString :=
  let parts := segments caseTable mac
  if 5 ≤ parts.length then
    probe ouiData (key36 parts) (probe ouiData (key28 parts)
      (probe ouiData (key24 parts) (.error .notFound)))
  else if 4 ≤ parts.length then
    probe ouiData (key28 parts) (probe ouiData (key24 parts) (.error .notFound))
  else if 3 ≤ parts.length then
    probe ouiData (key24 parts) (.error .notFound)
  else .error .notFound

/-- Path `filepath.Join(dataDir, savedFileName)` of the cached registry file. -/
def cacheFile : GoString := str "data/manuf.db"

/-- Second half of `Lookup`: reload the cache file into `ouiData`, then resolve. -/
def loadAndResolve (caseTable : Nat → Nat) (w : World) (mac : GoString) :
    Outcome GoString × World :=
  match UpdateDatabase w cacheFile with
  | (.error e, w') => (.error e, w')
  | (.crash, w') => (.crash, w')
  | (.ok (), w') => (resolve caseTable w'.ouiData mac, w')

/-- Go function `Lookup`. The download `downloadManufDB` fetches over the network, so
it is a parameter: from the file system it finds, the error it returns (`none` for
nil) and the file system it leaves. -/
def Lookup (caseTable : Nat → Nat)
    (downloadManufDB : FileSystem → Option GoError × FileSystem)
    (w : World) (mac : GoString) : Outcome GoString × World :=
  match w.files cacheFile with
  | some _ => loadAndResolve caseTable w mac
  | none =>
    let fetched := downloadManufDB w.files
    if fetched.1 = none then (.error .downloadReported, { w with files := fetched.2 })
    else loadAndResolve caseTable { w with files := fetched.2 } mac

/-! ## Vocabulary of the specification -/

/-- The 24-bit key of a list of segments: the first three segments joined by `':'`. -/
def specKey24 (parts : List GoString) : GoString :=
  Join (parts.take 3) (str ":")

/-- The 28-bit key of a list of segments: the first three segments, then `':'` and the
first character of the fourth segment. -/
def specKey28 (parts : List GoString) : GoString :=
  Join (parts.take 3) (str ":") ++ str ":" ++ (parts.getD 3 []).take 1

/-- The 36-bit key of a list of segments: the first four segments, then `':'` and the
first character of the fifth segment. -/
def specKey36 (parts : List GoString) : GoString :=
  Join (parts.take 4) (str ":") ++ str ":" ++ (parts.getD 4 []).take 1

/-- The candidate keys of the specification, most specific first, by number of
segments. -/
def specCandidates (parts : List GoString) : List GoString :=
  if 5 ≤ parts.length then [specKey36 parts, specKey28 parts, specKey24 parts]
  else if parts.length = 4 then [specKey28 parts, specKey24 parts]
  else if parts.length = 3 then [specKey24 parts]
  else []

/-- The non-empty colon-separated segments of an address as written. -/
def rawSegments (mac : GoString) : List GoString :=
  (Split mac colon).filter (fun p => decide (p ≠ []))

/-- The same byte, or one ASCII letter in its two cases: an upper-case letter `A`-`Z`
(`0x41`-`0x5A`) and the lower-case letter that stands 32 places after it in ASCII. -/
def sameLetter (x y : Nat) : Bool :=
  decide (x = y)
    || (decide (0x41 ≤ x) && decide (x ≤ 0x5A) && decide (y = x + 0x20))
    || (decide (0x41 ≤ y) && decide (y ≤ 0x5A) && decide (x = y + 0x20))

/-- Two strings that differ only in the case of their ASCII letters: the same length,
and at every position the same byte or the same letter in the other case. -/
def sameUpToCase : GoString → GoString → Bool
  | [], [] => true
  | x :: a, y :: b => sameLetter x y && sameUpToCase a b
  | _, _ => false

/-- A mapping with a 24-bit, a 28-bit and a 36-bit entry under one OUI. -/
def nestedMapping : Mapping :=
  ⟨[(str "FC:D2:B6", str "Block24"), (str "FC:D2:B6:2", str "Soma"),
    (str "FC:D2:B6:20:1", str "Block36")]⟩

/-- A line of the source that yields an entry: it does not begin with `'#'`, is not made
of white space only, and has at least two white-space-separated fields. -/
def qualifies (line : GoString) : Bool :=
  !(HasPrefix line (str "#")) && !(decide (TrimSpace line = []))
    && decide (2 ≤ (Fields line).length)

/-- Field `i` of a line, counted from 0 (empty when the line has no such field). -/
def field (line : GoString) (i : Nat) : GoString :=
  (Fields line).getD i []

/-- The qualifying lines of a file, in the order of the file. -/
def qualifyingLines (f : FileContent) : List GoString :=
  (scanLines f).filter qualifies

/-- The key that a line is stored under: `normalizeMACPrefix` of its field 0. -/
def normalizedKey (line : GoString) : Option GoString :=
  normalizeMACPrefix (field line 0)

/-! ## Sample data -/

/-- Constant `sampleData` of `ouidb_test.go`. -/
def sampleData : GoString :=
  str ("\n# Comment\n"
    ++ "00:00:00            00:00:00        Xerox Corporation\n"
    ++ "FC:D2:B6:00/28      CgPowerAndIn    Cg Power And Industrial Solutions Ltd\n"
    ++ "FC:D2:B6:10/28      Link            Link (Far-East) Corporation\n"
    ++ "FC:D2:B6:20/28      Soma            Soma GmbH\n"
    ++ "8C:1F:64:DC:60/36   R&K             R&K\n")

/-- The temporary file that `writeTempManuf` creates in the tests. -/
def testFile : GoString := str "/tmp/TestLookup/001/manuf.db"

/-- The world of `TestLookup` on a fresh checkout: the temporary file holds the sample
data and there is no cached registry file. -/
def testWorld : World :=
  ⟨Mapping.empty, fun p => if p = testFile then some ⟨sampleData, false⟩ else none⟩

/-- The world of `TestLookup` when the cached registry file holds another registry. -/
def staleCacheWorld : World :=
  ⟨Mapping.empty, fun p =>
    if p = testFile then some ⟨sampleData, false⟩
    else if p = cacheFile then some ⟨str "FC:D2:B6:20/28 Other Other Ltd\n", false⟩
    else none⟩

/-- A download that fails and leaves the file system as it is (no network). -/
def offline : FileSystem → Option GoError × FileSystem :=
  fun fs => (some GoError.downloadFailed, fs)

/-- A registry whose first line carries a `/28` suffix on two octets only. -/
def malformedWorld : World :=
  ⟨Mapping.empty, fun _ => some ⟨str "FC:D2/28 Foo\n00:00:00 Xerox\n", false⟩⟩

/-! ## Specifiers, key shapes and further sample worlds -/

/-- The bit count of a specifier, given the text after its first `'/'`: that text up to
the next `'/'`, if there is one. -/
def bitCount (rest : GoString) : GoString :=
  rest.takeWhile (fun c => decide (c ≠ slash))

/-- A download that succeeds and writes the sample data to the cache file. -/
def downloadOk : FileSystem → Option GoError × FileSystem :=
  fun fs => (none, fun p => if p = cacheFile then some ⟨sampleData, false⟩ else fs p)

/-- A world that holds an entry loaded earlier from another source, the temporary file
holding the sample data. -/
def reloadWorld : World :=
  ⟨⟨[(str "AA:BB:CC", str "Old")]⟩, testWorld.files⟩

/-- A world whose registry file breaks off with a read error after one complete line,
while the mapping holds an entry of an earlier load. -/
def brokenReadWorld : World :=
  ⟨⟨[(str "AA:BB:CC", str "Old")]⟩,
    fun _ => some ⟨str "00:00:00 Xerox\nFC:D2:B6:00/28 Cg", true⟩⟩

/-- An ASCII lower-case letter. -/
def isLowerASCII (c : Nat) : Bool :=
  decide (0x61 ≤ c) && decide (c ≤ 0x7A)

/-- A string that holds no ASCII lower-case letter. -/
def noLower (s : GoString) : Bool :=
  s.all (fun c => !isLowerASCII c)

/-- A registry whose only line is written in lower-case hex. -/
def lowercaseWorld : World :=
  ⟨Mapping.empty, fun _ => some ⟨str "fc:d2:b6:00/28 Cg\n", false⟩⟩

/-- An upper-case hexadecimal digit, `0`-`9` or `A`-`F`. -/
def isUpperHex (c : Nat) : Bool :=
  (decide (0x30 ≤ c) && decide (c ≤ 0x39)) || (decide (0x41 ≤ c) && decide (c ≤ 0x46))

/-- An octet: two upper-case hexadecimal digits. -/
def isOctet (s : GoString) : Bool :=
  match s with
  | [a, b] => isUpperHex a && isUpperHex b
  | _ => false

/-- A single upper-case hexadecimal digit. -/
def isHexDigit (s : GoString) : Bool :=
  match s with
  | [a] => isUpperHex a
  | _ => false

/-- The three key shapes of the specification: three octets, three octets and one hex
digit, four octets and one hex digit, colon-separated. -/
def keyShape (k : GoString) : Bool :=
  match Split k colon with
  | [a, b, c] => isOctet a && isOctet b && isOctet c
  | [a, b, c, d] => isOctet a && isOctet b && isOctet c && isHexDigit d
  | [a, b, c, d, e] => isOctet a && isOctet b && isOctet c && isOctet d && isHexDigit e
  | _ => false

/-- The three supported forms of field 0: a 3-octet prefix `A:B:C`, a specifier
`A:B:C:D/28` and a specifier `A:B:C:D:E/36`, the octets in upper-case hex. -/
def supportedSpecifier (f0 : GoString) : Bool :=
  match Split f0 slash with
  | [mac] =>
    (match Split mac colon with
      | [a, b, c] => isOctet a && isOctet b && isOctet c
      | _ => false)
  | [mac, bits] =>
    (match Split mac colon with
      | [a, b, c, d] =>
        decide (bits = str "28") && isOctet a && isOctet b && isOctet c && isOctet d
      | [a, b, c, d, e] =>
        decide (bits = str "36") && isOctet a && isOctet b && isOctet c && isOctet d
          && isOctet e
      | _ => false)
  | _ => false

/-- A registry whose only line carries a `/32` specifier. -/
def otherBitsWorld : World :=
  ⟨Mapping.empty, fun _ => some ⟨str "AA:BB:CC:DD/32 Foo\n", false⟩⟩

/-! ## Auxiliary definitions -/

/-- The continuation bytes that can take part in the rune starting a string: at most
three, up to the first byte below `0x80`. -/
def contBytes (t : GoString) : GoString :=
  (t.takeWhile (fun b => decide (0x80 ≤ b))).take 3

/-! ## Theorems: the resolution step -/

theorem ne_nil_of_mem_segments (caseTable : Nat → Nat) (mac p : GoString)
    (h : p ∈ segments caseTable mac) : p ≠ [] := by
  unfold segments at h
  simpa using (List.mem_filter.1 h).2

theorem key24_eq (parts : List GoString) (h : 3 ≤ parts.length) :
    key24 parts = some (specKey24 parts) := by
  simp [key24, sliceTo, specKey24, h]

theorem key28_eq (parts : List GoString) (h : 4 ≤ parts.length)
    (hne : ∀ p ∈ parts, p ≠ []) : key28 parts = some (specKey28 parts) := by
  have h3 : 3 ≤ parts.length := by omega
  have hlt : 3 < parts.length := by omega
  have hmem : parts[3] ∈ parts := List.getElem_mem _
  have hpos : 1 ≤ (parts[3]).length := by
    have := hne _ hmem
    exact Nat.one_le_iff_ne_zero.2 (by simpa using this)
  simp [key28, sliceTo, specKey28, h3, hlt, List.getElem?_eq_getElem, List.getD_eq_getElem, hpos,
    sprintfColon]

theorem key36_eq (parts : List GoString) (h : 5 ≤ parts.length)
    (hne : ∀ p ∈ parts, p ≠ []) : key36 parts = some (specKey36 parts) := by
  have h4 : 4 ≤ parts.length := by omega
  have hlt : 4 < parts.length := by omega
  have hmem : parts[4] ∈ parts := List.getElem_mem _
  have hpos : 1 ≤ (parts[4]).length := by
    have := hne _ hmem
    exact Nat.one_le_iff_ne_zero.2 (by simpa using this)
  simp [key36, sliceTo, specKey36, h4, hlt, List.getElem?_eq_getElem, List.getD_eq_getElem, hpos,
    sprintfColon]

theorem probe_some (m : Mapping) (k : GoString) (rest : Outcome GoString) :
    probe m (some k) rest = (match m.get k with | some v => .ok v | none => rest) := rfl

/-- The resolution step never panics: it probes the candidate keys of the specification
in order and returns the first label found. -/
theorem resolve_eq_findSome (caseTable : Nat → Nat) (m : Mapping) (mac : GoString) :
    resolve caseTable m mac
      = (match (specCandidates (segments caseTable mac)).findSome? m.get with
        | some label => Outcome.ok label
        | none => Outcome.error GoError.notFound) := by
  have hne := ne_nil_of_mem_segments caseTable mac
  unfold resolve specCandidates
  by_cases h5 : 5 ≤ (segments caseTable mac).length
  · simp only [h5, if_true]
    rw [key36_eq _ h5 hne, key28_eq _ (by omega) hne, key24_eq _ (by omega)]
    simp only [probe_some, List.findSome?]
    rcases h36 : m.get (specKey36 (segments caseTable mac)) with _ | v36 <;>
      rcases h28 : m.get (specKey28 (segments caseTable mac)) with _ | v28 <;>
      rcases h24 : m.get (specKey24 (segments caseTable mac)) with _ | v24 <;>
      simp [h36, h28, h24]
  · by_cases h4 : (segments caseTable mac).length = 4
    · simp only [h5, if_false, h4, if_true, show 4 ≤ 4 from le_refl 4]
      rw [key28_eq _ (by omega) hne, key24_eq _ (by omega)]
      simp only [probe_some, List.findSome?]
      rcases h28 : m.get (specKey28 (segments caseTable mac)) with _ | v28 <;>
        rcases h24 : m.get (specKey24 (segments caseTable mac)) with _ | v24 <;>
        simp [h28, h24]
    · by_cases h3 : (segments caseTable mac).length = 3
      · simp only [h5, if_false, h3, if_true, show ¬ 4 ≤ 3 by omega, show 3 ≤ 3 from le_refl 3,
          show ¬ (3 = 4) by omega]
        rw [key24_eq _ (by omega)]
        simp only [probe_some, List.findSome?]
        rcases h24 : m.get (specKey24 (segments caseTable mac)) with _ | v24 <;> simp [h24]
      · have h4' : ¬ 4 ≤ (segments caseTable mac).length := by omega
        have h3' : ¬ 3 ≤ (segments caseTable mac).length := by omega
        simp [h5, h4, h3, h4', h3']

/-- C1. For every mapping and every address, the resolution step of `Lookup` returns the
label stored under the first candidate key present in the mapping, the candidates being
the 36-bit, 28-bit and 24-bit keys for five or more segments, the 28-bit and 24-bit keys
for four segments and the 24-bit key for three; and it fails with the not-found error
exactly when none of the candidate keys is present. -/
theorem resolve_first_present_candidate (caseTable : Nat → Nat) (m : Mapping)
    (mac : GoString) :
    resolve caseTable m mac
        = (match (specCandidates (segments caseTable mac)).findSome? m.get with
          | some label => Outcome.ok label
          | none => Outcome.error GoError.notFound)
      ∧ (resolve caseTable m mac = Outcome.error GoError.notFound
          ↔ ∀ k ∈ specCandidates (segments caseTable mac), m.get k = none) := by
  refine ⟨resolve_eq_findSome caseTable m mac, ?_⟩
  rw [resolve_eq_findSome]
  rcases h : (specCandidates (segments caseTable mac)).findSome? m.get with _ | v
  · simp only [true_iff]
    intro k hk
    exact List.findSome?_eq_none_iff.1 h k hk
  · refine ⟨fun hc => Outcome.noConfusion hc, fun hall => ?_⟩
    exfalso
    obtain ⟨k, hk, hv⟩ := List.exists_of_findSome?_eq_some h
    rw [hall k hk] at hv
    exact Option.noConfusion hv

/-- C2, as stated, fails: with a 24-bit key, a 28-bit key and a matching 36-bit key all
present, an address of six segments resolves to the label of the 36-bit key, not to the
label of the 28-bit key. -/
theorem resolve_28_bit_shadowed_by_36_bit :
    nestedMapping.get (str "FC:D2:B6") = some (str "Block24")
      ∧ nestedMapping.get (str "FC:D2:B6:2") = some (str "Soma")
      ∧ segments (fun r => r) (str "FC:D2:B6:20:11:22")
          = [str "FC", str "D2", str "B6", str "20", str "11", str "22"]
      ∧ resolve (fun r => r) nestedMapping (str "FC:D2:B6:20:11:22")
          = Outcome.ok (str "Block36")
      ∧ resolve (fun r => r) nestedMapping (str "FC:D2:B6:20:11:22")
          ≠ Outcome.ok (str "Soma") := by
  decide

/-- C2, amended. When the mapping holds both the 24-bit key `A:B:C` and the 28-bit key
`A:B:C:d`, and the segments of the address start with `A`, `B`, `C` and a fourth segment
whose first character is `d`, the resolution step returns the label of the 28-bit key,
provided that, for an address of five or more segments, its 36-bit key is not in the
mapping. -/
theorem resolve_prefers_28_bit_key (caseTable : Nat → Nat) (m : Mapping)
    (mac A B C D : GoString) (d : Nat) (rest : List GoString) (l24 l28 : GoString)
    (hseg : segments caseTable mac = A :: B :: C :: (d :: D) :: rest)
    (_h24 : m.get (Join [A, B, C] (str ":")) = some l24)
    (h28 : m.get (Join [A, B, C] (str ":") ++ str ":" ++ [d]) = some l28)
    (h36 : rest ≠ [] → m.get (specKey36 (segments caseTable mac)) = none) :
    resolve caseTable m mac = Outcome.ok l28 := by
  rw [resolve_eq_findSome, hseg]
  have h28' : m.get (specKey28 (A :: B :: C :: (d :: D) :: rest)) = some l28 := by
    simpa [specKey28] using h28
  cases rest with
  | nil => simp [specCandidates, List.findSome?, h28']
  | cons E rest' =>
    have h36' := h36 (by simp)
    rw [hseg] at h36'
    simp [specCandidates, List.findSome?, h28', h36']

/-- C2, amended, at the sample entry `FC:D2:B6:2`. -/
theorem resolve_prefers_28_bit_key_witness :
    resolve (fun r => r) nestedMapping (str "FC:D2:B6:20") = Outcome.ok (str "Soma") :=
  resolve_prefers_28_bit_key (fun r => r) nestedMapping (str "FC:D2:B6:20")
    (str "FC") (str "D2") (str "B6") (str "0") 0x32 [] (str "Block24") (str "Soma")
    (by decide) (by decide) (by decide) (by simp)


/-! ### UTF-8 decoding and `strings.ToUpper` -/

theorem leadInfo_cases (s0 : Nat) (r : Option (Nat × Nat × Nat)) (h : leadInfo s0 = r) :
    r = none ∨ ∃ sz lo hi, r = some (sz, lo, hi) ∧
      (sz = 2 ∨ sz = 3 ∨ sz = 4) ∧ 0x80 ≤ lo ∧ hi ≤ 0xBF := by
  unfold leadInfo at h
  split_ifs at h <;> subst h <;>
    first
    | exact Or.inl rfl
    | exact Or.inr ⟨_, _, _, rfl, by decide, by decide, by decide⟩

theorem decode_width (s : GoString) (h : s ≠ []) :
    1 ≤ (DecodeRuneInString s).2 ∧ (DecodeRuneInString s).2 ≤ s.length := by
  cases s with
  | nil => exact absurd rfl h
  | cons s0 t =>
    unfold DecodeRuneInString
    rcases leadInfo_cases s0 _ rfl with hn | ⟨sz, lo, hi, hs, hsz, -, -⟩
    · simp only [hn]; split_ifs <;> simp
    · simp only [hs, List.length_cons]
      split_ifs <;> dsimp only <;> omega


set_option maxHeartbeats 4000000 in
theorem decode_cont (s0 : Nat) (t : GoString) :
    DecodeRuneInString (s0 :: t) = DecodeRuneInString (s0 :: contBytes t) := by
  unfold DecodeRuneInString contBytes
  by_cases h0 : s0 < RuneSelf
  · simp only [h0, if_true]
  · simp only [h0, if_false]
    rcases leadInfo_cases s0 _ rfl with hn | ⟨sz, lo, hi, hs, hsz, hlo, hhi⟩
    · simp only [hn]
    · simp only [hs]
      rcases t with _ | ⟨a, t1⟩
      · rfl
      · by_cases ha : 0x80 ≤ a
        · rcases t1 with _ | ⟨b, t2⟩
          · simp [List.takeWhile, ha]
          · by_cases hb : 0x80 ≤ b
            · rcases t2 with _ | ⟨c, t3⟩
              · simp [List.takeWhile, ha, hb]
              · by_cases hc : 0x80 ≤ c
                · simp only [List.takeWhile, ha, hb, hc, decide_True, List.take_succ_cons,
                    List.take_zero, List.length_cons, List.getD_cons_succ, List.getD_cons_zero,
                    List.length_nil]
                  split_ifs <;> first | omega | with_reducible rfl
                · simp only [List.takeWhile, ha, hb, hc, decide_True, decide_False,
                    List.take_succ_cons,
                    List.take_nil, List.length_cons, List.getD_cons_succ, List.getD_cons_zero,
                    List.length_nil]
                  split_ifs <;> first | omega | with_reducible rfl
            · simp only [List.takeWhile, ha, hb, decide_True, decide_False,
                    List.take_succ_cons,
                    List.take_nil, List.length_cons, List.getD_cons_succ, List.getD_cons_zero,
                    List.length_nil]
              split_ifs <;> first | omega | with_reducible rfl
        · simp only [List.takeWhile, ha, decide_True, decide_False,
                    List.take_succ_cons,
                    List.take_nil, List.length_cons, List.getD_cons_succ, List.getD_cons_zero,
                    List.length_nil]
          split_ifs <;> first | omega | with_reducible rfl

theorem takeWhile_append_stop {p : Nat → Bool} (t y : List Nat) (b : Nat) (hb : p b = false) :
    (t ++ b :: y).takeWhile p = t.takeWhile p := by
  induction t with
  | nil => simp [List.takeWhile, hb]
  | cons a t ih =>
    by_cases ha : p a = true
    · simp [List.takeWhile, ha, ih]
    · simp [List.takeWhile, ha]

theorem contBytes_append (t y : GoString) (b : Nat) (hb : b < 0x80) :
    contBytes (t ++ b :: y) = contBytes t := by
  unfold contBytes
  rw [takeWhile_append_stop]
  simpa using hb

theorem decode_append (x y : GoString) (b : Nat) (hx : x ≠ []) (hb : b < 0x80) :
    DecodeRuneInString (x ++ b :: y) = DecodeRuneInString x := by
  cases x with
  | nil => exact absurd rfl hx
  | cons s0 t =>
    rw [List.cons_append, decode_cont, contBytes_append t y b hb, ← decode_cont]

theorem decode_ascii (c : Nat) (t : GoString) (hc : c < 0x80) :
    DecodeRuneInString (c :: t) = (c, 1) := by
  simp [DecodeRuneInString, RuneSelf, hc]

theorem mapRunes_fuel (f : Nat → Nat) :
    ∀ (n fuel1 fuel2 : Nat) (s : GoString), s.length ≤ n → n ≤ fuel1 → n ≤ fuel2 →
      mapRunes f fuel1 s = mapRunes f fuel2 s := by
  intro n
  induction n with
  | zero =>
    intro fuel1 fuel2 s hs _ _
    have : s = [] := List.length_eq_zero.1 (Nat.le_zero.1 hs)
    subst this
    cases fuel1 <;> cases fuel2 <;> rfl
  | succ n ih =>
    intro fuel1 fuel2 s hs h1 h2
    cases fuel1 with
    | zero => omega
    | succ fuel1 =>
      cases fuel2 with
      | zero => omega
      | succ fuel2 =>
        cases s with
        | nil => rfl
        | cons c t =>
          simp only [mapRunes]
          have hw := decode_width (c :: t) (by simp)
          rw [ih fuel1 fuel2 _ (by simp only [List.length_drop, List.length_cons] at *; omega)
            (by omega) (by omega)]

theorem Map_nil (f : Nat → Nat) : Map f [] = [] := rfl

theorem Map_cons (f : Nat → Nat) (c : Nat) (t : GoString) :
    Map f (c :: t) = encodeRune (f (DecodeRuneInString (c :: t)).1)
      ++ Map f ((c :: t).drop (DecodeRuneInString (c :: t)).2) := by
  have hw := decode_width (c :: t) (by simp)
  unfold Map
  simp only [List.length_cons, mapRunes]
  rw [mapRunes_fuel f ((c :: t).drop (DecodeRuneInString (c :: t)).2).length t.length
    ((c :: t).drop (DecodeRuneInString (c :: t)).2).length _ (le_refl _)
    (by simp only [List.length_drop, List.length_cons] at *; omega) (le_refl _)]

theorem Map_append_ascii (f : Nat → Nat) (b : Nat) (hb : b < 0x80) (y : GoString) :
    ∀ (n : Nat) (x : GoString), x.length ≤ n →
      Map f (x ++ b :: y) = Map f x ++ encodeRune (f b) ++ Map f y := by
  intro n
  induction n with
  | zero =>
    intro x hx
    have : x = [] := List.length_eq_zero.1 (Nat.le_zero.1 hx)
    subst this
    rw [List.nil_append, Map_cons, decode_ascii b y hb, Map_nil]
    simp
  | succ n ih =>
    intro x hx
    cases x with
    | nil =>
      rw [List.nil_append, Map_cons, decode_ascii b y hb, Map_nil]
      simp
    | cons c t =>
      have hw := decode_width (c :: t) (by simp)
      have hd := decode_append (c :: t) y b (by simp) hb
      rw [Map_cons f c t]
      rw [List.cons_append, Map_cons f c (t ++ b :: y)]
      rw [← List.cons_append, hd]
      rw [List.drop_append_of_le_length hw.2]
      rw [ih _ (by simp only [List.length_drop, List.length_cons] at *; omega)]
      simp [List.append_assoc]

theorem upperASCII_lt (c : Nat) (hc : c < 0x80) : upperASCII c < 0x80 := by
  unfold upperASCII; split_ifs <;> omega

theorem Map_ascii (caseTable : Nat → Nat) (s : GoString) (hs : ∀ c ∈ s, c < 0x80) :
    Map (unicodeToUpper caseTable) s = s.map upperASCII := by
  induction s with
  | nil => rfl
  | cons c t ih =>
    have hc : c < 0x80 := hs c (by simp)
    rw [Map_cons, decode_ascii c t hc]
    simp only [List.drop_succ_cons, List.drop_zero, List.map_cons]
    rw [ih (fun d hd => hs d (by simp [hd]))]
    have h1 : unicodeToUpper caseTable c = upperASCII c := by
      unfold unicodeToUpper; rw [if_pos (by omega)]
    have h2 := upperASCII_lt c hc
    simp [h1, encodeRune, RuneSelf, h2]

theorem ToUpper_eq_Map (caseTable : Nat → Nat) (s : GoString) :
    ToUpper caseTable s = Map (unicodeToUpper caseTable) s := by
  unfold ToUpper
  split_ifs with h
  · rw [Map_ascii]
    intro c hc
    have := List.all_eq_true.1 h c hc
    simpa [RuneSelf] using this
  · rfl

theorem ToUpper_append_colon (caseTable : Nat → Nat) (x y : GoString) :
    ToUpper caseTable (x ++ colon :: y)
      = ToUpper caseTable x ++ colon :: ToUpper caseTable y := by
  simp only [ToUpper_eq_Map]
  rw [Map_append_ascii _ colon (by decide) y x.length x (le_refl _)]
  simp [unicodeToUpper, upperASCII, colon, encodeRune, RuneSelf]

theorem splitGo_append (sep : Nat) (y : GoString) :
    ∀ (x cur : GoString),
      splitGo sep (x ++ sep :: y) cur = splitGo sep x cur ++ splitGo sep y [] := by
  intro x
  induction x with
  | nil => intro cur; simp [splitGo]
  | cons c t ih =>
    intro cur
    by_cases hc : c = sep
    · simp [splitGo, hc, ih]
    · simp [splitGo, hc, ih]

theorem Split_append (sep : Nat) (x y : GoString) :
    Split (x ++ sep :: y) sep = Split x sep ++ Split y sep :=
  splitGo_append sep y x []

theorem splitGo_of_not_mem (sep : Nat) :
    ∀ (x cur : GoString), sep ∉ x → splitGo sep x cur = [cur ++ x] := by
  intro x
  induction x with
  | nil => intro cur _; simp [splitGo]
  | cons c t ih =>
    intro cur h
    have hc : c ≠ sep := fun e => h (by simp [e])
    have ht : sep ∉ t := fun e => h (by simp [e])
    simp [splitGo, hc, ih _ ht]

theorem Split_of_not_mem (sep : Nat) (x : GoString) (h : sep ∉ x) : Split x sep = [x] := by
  simpa using splitGo_of_not_mem sep x [] h

theorem segments_append (caseTable : Nat → Nat) (x y : GoString) :
    segments caseTable (x ++ colon :: y) = segments caseTable x ++ segments caseTable y := by
  unfold segments
  rw [ToUpper_append_colon, Split_append, List.filter_append]

theorem rawSegments_append (x y : GoString) :
    rawSegments (x ++ colon :: y) = rawSegments x ++ rawSegments y := by
  unfold rawSegments
  rw [Split_append, List.filter_append]

theorem segments_nil (caseTable : Nat → Nat) : segments caseTable [] = [] := by
  simp [segments, ToUpper, Split, splitGo]

theorem segments_eq_flatMap (caseTable : Nat → Nat) :
    ∀ (n : Nat) (s : GoString), s.length ≤ n →
      segments caseTable s = (rawSegments s).flatMap (segments caseTable) := by
  intro n
  induction n with
  | zero =>
    intro s hs
    have : s = [] := List.length_eq_zero.1 (Nat.le_zero.1 hs)
    subst this
    simp [segments_nil, rawSegments, Split, splitGo]
  | succ n ih =>
    intro s hs
    by_cases hmem : colon ∈ s
    · obtain ⟨x, y, rfl, hx⟩ := List.eq_append_cons_of_mem hmem
      rw [segments_append, rawSegments_append, List.flatMap_append]
      have hy : y.length ≤ n := by
        simp only [List.length_append, List.length_cons] at hs; omega
      rw [← ih y hy]
      congr 1
      by_cases hnil : x = []
      · subst hnil
        simp [segments_nil, rawSegments, Split, splitGo]
      · simp [rawSegments, Split_of_not_mem colon x hx, hnil]
    · by_cases hnil : s = []
      · subst hnil
        simp [segments_nil, rawSegments, Split, splitGo]
      · simp [rawSegments, Split_of_not_mem colon s hmem, hnil]


/-! ### Upper-casing and the case of ASCII letters -/

/-- The upper-casing of the code sends the two cases of an ASCII letter to the same
byte: `upperASCII` subtracts 32 from a lower-case letter and keeps an upper-case one. -/
theorem sameLetter_upperASCII (x y : Nat) (h : sameLetter x y = true) :
    x = y ∨ (x < 0x80 ∧ y < 0x80 ∧ upperASCII x = upperASCII y) := by
  simp only [sameLetter, Bool.or_eq_true, Bool.and_eq_true, decide_eq_true_eq] at h
  rcases h with (h | ⟨⟨h1, h2⟩, h3⟩) | ⟨⟨h1, h2⟩, h3⟩
  · exact Or.inl h
  · refine Or.inr ⟨by omega, by omega, ?_⟩
    unfold upperASCII
    rw [if_neg (by omega), if_pos (by omega)]
    omega
  · refine Or.inr ⟨by omega, by omega, ?_⟩
    unfold upperASCII
    rw [if_pos (by omega), if_neg (by omega)]
    omega

theorem sameUpToCase_cons (x y : Nat) (a b : GoString) (h : sameUpToCase (x :: a) (y :: b) = true) :
    (x = y ∨ (x < 0x80 ∧ y < 0x80 ∧ upperASCII x = upperASCII y)) ∧ sameUpToCase a b = true := by
  simp only [sameUpToCase, Bool.and_eq_true] at h
  exact ⟨sameLetter_upperASCII x y h.1, h.2⟩

theorem sameUpToCase_contBytes : ∀ (a b : GoString), sameUpToCase a b = true →
    contBytes a = contBytes b := by
  intro a
  induction a with
  | nil =>
    intro b h
    cases b with
    | nil => rfl
    | cons y b => simp [sameUpToCase] at h
  | cons x a ih =>
    intro b h
    cases b with
    | nil => simp [sameUpToCase] at h
    | cons y b =>
      obtain ⟨hxy, hab⟩ := sameUpToCase_cons x y a b h
      have ih' := ih b hab
      unfold contBytes at ih' ⊢
      rcases hxy with rfl | ⟨hx, hy, -⟩
      · by_cases hx : 0x80 ≤ x
        · simp only [List.takeWhile, hx, decide_True, List.take_succ_cons]
          have := congrArg (List.take 2) ih'
          simp only [List.take_take] at this
          simpa using this
        · simp [List.takeWhile, hx]
      · have hx' : ¬ 0x80 ≤ x := by omega
        have hy' : ¬ 0x80 ≤ y := by omega
        simp [List.takeWhile, hx', hy']

theorem sameUpToCase_drop : ∀ (n : Nat) (a b : GoString), sameUpToCase a b = true →
    sameUpToCase (a.drop n) (b.drop n) = true := by
  intro n
  induction n with
  | zero => intro a b h; simpa using h
  | succ n ih =>
    intro a b h
    cases a with
    | nil =>
      cases b with
      | nil => simp [sameUpToCase]
      | cons y b => simp [sameUpToCase] at h
    | cons x a =>
      cases b with
      | nil => simp [sameUpToCase] at h
      | cons y b =>
        simp only [List.drop_succ_cons]
        exact ih a b (sameUpToCase_cons x y a b h).2

theorem Map_sameUpToCase (caseTable : Nat → Nat) :
    ∀ (n : Nat) (a b : GoString), a.length ≤ n → sameUpToCase a b = true →
      Map (unicodeToUpper caseTable) a = Map (unicodeToUpper caseTable) b := by
  intro n
  induction n with
  | zero =>
    intro a b ha h
    have : a = [] := List.length_eq_zero.1 (Nat.le_zero.1 ha)
    subst this
    cases b with
    | nil => rfl
    | cons y b => simp [sameUpToCase] at h
  | succ n ih =>
    intro a b ha h
    cases a with
    | nil =>
      cases b with
      | nil => rfl
      | cons y b => simp [sameUpToCase] at h
    | cons x a =>
      cases b with
      | nil => simp [sameUpToCase] at h
      | cons y b =>
        obtain ⟨hxy, hab⟩ := sameUpToCase_cons x y a b h
        rw [Map_cons, Map_cons]
        rcases hxy with rfl | ⟨hx, hy, hu⟩
        · have hd : DecodeRuneInString (x :: a) = DecodeRuneInString (x :: b) := by
            rw [decode_cont x a, decode_cont x b, sameUpToCase_contBytes a b hab]
          have hw := decode_width (x :: a) (by simp)
          rw [← hd]
          congr 1
          exact ih _ _ (by simp only [List.length_drop, List.length_cons] at *; omega)
            (sameUpToCase_drop _ _ _ h)
        · rw [decode_ascii x a hx, decode_ascii y b hy]
          simp only [List.drop_succ_cons, List.drop_zero]
          have h1 : unicodeToUpper caseTable x = unicodeToUpper caseTable y := by
            unfold unicodeToUpper
            rw [if_pos (by omega), if_pos (by omega), hu]
          rw [h1]
          congr 1
          exact ih a b (by simp only [List.length_cons] at ha; omega) hab

theorem ToUpper_sameUpToCase (caseTable : Nat → Nat) (a b : GoString)
    (h : sameUpToCase a b = true) : ToUpper caseTable a = ToUpper caseTable b := by
  rw [ToUpper_eq_Map, ToUpper_eq_Map]
  exact Map_sameUpToCase caseTable a.length a b (le_refl _) h

/-- C9. The resolution step is case-insensitive: two addresses that differ only in the
case of their ASCII letters resolve to the same outcome, whatever the mapping. -/
theorem resolve_case_insensitive (caseTable : Nat → Nat) (m : Mapping) (a b : GoString)
    (h : sameUpToCase a b = true) : resolve caseTable m a = resolve caseTable m b := by
  unfold resolve segments
  rw [ToUpper_sameUpToCase caseTable a b h]

/-- C9 at the addresses `fc:d2:b6:20:11:22` and `FC:D2:B6:20:11:22`. -/
theorem resolve_case_insensitive_witness :
    resolve (fun r => r) nestedMapping (str "fc:d2:b6:20:11:22")
      = resolve (fun r => r) nestedMapping (str "FC:D2:B6:20:11:22") :=
  resolve_case_insensitive (fun r => r) nestedMapping _ _ (by decide)

theorem resolve_congr_segments (caseTable : Nat → Nat) (m : Mapping) (a b : GoString)
    (h : segments caseTable a = segments caseTable b) :
    resolve caseTable m a = resolve caseTable m b := by
  unfold resolve
  rw [h]

/-- C10. Empty segments are discarded before matching: an address with a colon appended
resolves as the address itself, and two addresses with the same list of non-empty
colon-separated segments resolve to the same outcome. -/
theorem resolve_ignores_empty_segments (caseTable : Nat → Nat) (m : Mapping) (a b : GoString) :
    resolve caseTable m (a ++ str ":") = resolve caseTable m a
      ∧ (rawSegments a = rawSegments b → resolve caseTable m a = resolve caseTable m b) := by
  constructor
  · apply resolve_congr_segments
    have : a ++ str ":" = a ++ colon :: [] := rfl
    rw [this, segments_append, segments_nil, List.append_nil]
  · intro h
    apply resolve_congr_segments
    rw [segments_eq_flatMap caseTable a.length a (le_refl _),
      segments_eq_flatMap caseTable b.length b (le_refl _), h]

/-- C10 at the address `FC:D2:B6:20` written with doubled and trailing colons. -/
theorem resolve_ignores_empty_segments_witness :
    resolve (fun r => r) nestedMapping (str "FC:D2:B6:20")
      = resolve (fun r => r) nestedMapping (str "FC::D2:B6:20:") :=
  (resolve_ignores_empty_segments (fun r => r) nestedMapping (str "FC:D2:B6:20")
    (str "FC::D2:B6:20:")).2 (by decide)

/-! ### Upper-casing creates no colon -/

theorem le_or_left (a b : Nat) : a ≤ a ||| b :=
  Nat.le_of_testBit (fun i h => by simp [h])

theorem le_or_right (a b : Nat) : b ≤ a ||| b :=
  Nat.le_of_testBit (fun i h => by simp [h])

theorem leadInfo_spec (s0 sz lo hi : Nat) (h : leadInfo s0 = some (sz, lo, hi)) :
    hi ≤ 0xBF ∧ ((sz = 2 ∧ 0xC2 ≤ s0 ∧ s0 ≤ 0xDF)
      ∨ (sz = 3 ∧ 0xE0 ≤ s0 ∧ s0 ≤ 0xEF ∧ (s0 = 0xE0 → 0xA0 ≤ lo))
      ∨ (sz = 4 ∧ 0xF0 ≤ s0 ∧ s0 ≤ 0xF4 ∧ (s0 = 0xF0 → 0x90 ≤ lo))) := by
  unfold leadInfo at h
  split_ifs at h <;> simp only [Option.some.injEq, Prod.mk.injEq] at h <;>
    obtain ⟨rfl, rfl, rfl⟩ := h <;> omega

theorem and_1F (x : Nat) : x &&& 0x1F = x % 32 := Nat.and_pow_two_sub_one_eq_mod x 5
theorem and_0F (x : Nat) : x &&& 0x0F = x % 16 := Nat.and_pow_two_sub_one_eq_mod x 4
theorem and_07 (x : Nat) : x &&& 0x07 = x % 8 := Nat.and_pow_two_sub_one_eq_mod x 3
theorem and_3F (x : Nat) : x &&& 0x3F = x % 64 := Nat.and_pow_two_sub_one_eq_mod x 6

theorem decode_rune_ge (s0 : Nat) (t : GoString) (h0 : 0x80 ≤ s0) :
    0x80 ≤ (DecodeRuneInString (s0 :: t)).1 := by
  unfold DecodeRuneInString
  have h0' : ¬ s0 < RuneSelf := by unfold RuneSelf; omega
  simp only [h0', if_false]
  rcases hl : leadInfo s0 with _ | ⟨sz, lo, hi⟩
  · simp [RuneError]
  · have hs := leadInfo_spec s0 sz lo hi hl
    simp only
    split_ifs with h1 h2 h3 h4 h5 h6
    all_goals try (simp only [RuneError]; omega)
    · -- two bytes
      have hsz : sz = 2 := by omega
      have hb : 2 * 64 ≤ (s0 &&& 0x1F) <<< 6 := by
        rw [Nat.shiftLeft_eq, and_1F]; omega
      exact le_trans (by omega) (le_trans hb (le_or_left _ _))
    · -- three bytes
      have hsz : sz = 3 := by omega
      have hb : 0x80 ≤ (s0 &&& 0x0F) <<< 12 ||| ((s0 :: t).getD 1 0 &&& 0x3F) <<< 6 := by
        by_cases he : s0 = 0xE0
        · refine le_trans ?_ (le_or_right _ _)
          rw [Nat.shiftLeft_eq, and_3F]; omega
        · refine le_trans ?_ (le_or_left _ _)
          rw [Nat.shiftLeft_eq, and_0F]; omega
      exact le_trans hb (le_or_left _ _)
    · -- four bytes
      have hsz : sz = 4 := by omega
      have hb : 0x80 ≤ (s0 &&& 0x07) <<< 18 ||| ((s0 :: t).getD 1 0 &&& 0x3F) <<< 12 := by
        by_cases he : s0 = 0xF0
        · refine le_trans ?_ (le_or_right _ _)
          rw [Nat.shiftLeft_eq, and_3F]; omega
        · refine le_trans ?_ (le_or_left _ _)
          rw [Nat.shiftLeft_eq, and_07]; omega
      exact le_trans hb (le_trans (le_or_left _ _) (le_or_left _ _))

theorem encodeRune_ne_nil (r : Nat) : encodeRune r ≠ [] := by
  unfold encodeRune; split_ifs <;> simp

theorem encodeRune_no_colon (r : Nat) (h : r ≠ colon) : colon ∉ encodeRune r := by
  have k80 : ∀ e : Nat, colon ≠ 0x80 ||| e := fun e he => by
    have := le_or_left 0x80 e; rw [← he] at this; revert this; decide
  have kC0 : ∀ e : Nat, colon ≠ 0xC0 ||| e := fun e he => by
    have := le_or_left 0xC0 e; rw [← he] at this; revert this; decide
  have kE0 : ∀ e : Nat, colon ≠ 0xE0 ||| e := fun e he => by
    have := le_or_left 0xE0 e; rw [← he] at this; revert this; decide
  have kF0 : ∀ e : Nat, colon ≠ 0xF0 ||| e := fun e he => by
    have := le_or_left 0xF0 e; rw [← he] at this; revert this; decide
  unfold encodeRune
  split_ifs
  · simpa using fun e => h e.symm
  · simp only [List.mem_cons, List.mem_singleton, List.not_mem_nil, or_false, not_or]
    exact ⟨kC0 _, k80 _⟩
  · decide
  · simp only [List.mem_cons, List.mem_singleton, List.not_mem_nil, or_false, not_or]
    exact ⟨kE0 _, k80 _, k80 _⟩
  · simp only [List.mem_cons, List.mem_singleton, List.not_mem_nil, or_false, not_or]
    exact ⟨kF0 _, k80 _, k80 _, k80 _⟩

theorem unicodeToUpper_ne_colon (caseTable : Nat → Nat)
    (hT : ∀ r, 0x80 ≤ r → caseTable r ≠ colon) (c : Nat) (hc : c ≠ colon) :
    unicodeToUpper caseTable c ≠ colon := by
  unfold unicodeToUpper
  split_ifs with h
  · unfold upperASCII colon at *
    split_ifs <;> omega
  · exact hT c (by omega)

theorem decode_rune_ne_colon (s0 : Nat) (t : GoString) (h : s0 ≠ colon) :
    (DecodeRuneInString (s0 :: t)).1 ≠ colon := by
  by_cases h0 : s0 < 0x80
  · rw [decode_ascii s0 t h0]; exact h
  · have := decode_rune_ge s0 t (by omega)
    unfold colon; omega

theorem not_mem_drop {α : Type} (a : α) (n : Nat) (l : List α) (h : a ∉ l) : a ∉ l.drop n :=
  fun hm => h (List.mem_of_mem_drop hm)

theorem Map_no_colon (f : Nat → Nat) (hf : ∀ c, c ≠ colon → f c ≠ colon) :
    ∀ (n : Nat) (s : GoString), s.length ≤ n → colon ∉ s → colon ∉ Map f s := by
  intro n
  induction n with
  | zero =>
    intro s hs _
    have : s = [] := List.length_eq_zero.1 (Nat.le_zero.1 hs)
    subst this
    simp [Map_nil]
  | succ n ih =>
    intro s hs hc
    cases s with
    | nil => simp [Map_nil]
    | cons s0 t =>
      have hw := decode_width (s0 :: t) (by simp)
      rw [Map_cons, List.mem_append, not_or]
      refine ⟨encodeRune_no_colon _ (hf _ (decode_rune_ne_colon s0 t ?_)), ?_⟩
      · intro e; exact hc (by simp [e])
      · exact ih _ (by simp only [List.length_drop, List.length_cons] at *; omega)
          (not_mem_drop _ _ _ hc)

theorem Map_ne_nil (f : Nat → Nat) (s : GoString) (h : s ≠ []) : Map f s ≠ [] := by
  cases s with
  | nil => exact absurd rfl h
  | cons c t =>
    rw [Map_cons]
    intro e
    exact encodeRune_ne_nil _ (List.append_eq_nil.1 e).1

theorem segments_of_segment (caseTable : Nat → Nat)
    (hT : ∀ r, 0x80 ≤ r → caseTable r ≠ colon) (x : GoString) (hx : colon ∉ x)
    (hne : x ≠ []) : segments caseTable x = [ToUpper caseTable x] := by
  have h1 : colon ∉ ToUpper caseTable x := by
    rw [ToUpper_eq_Map]
    exact Map_no_colon _ (unicodeToUpper_ne_colon caseTable hT) x.length x (le_refl _) hx
  have h2 : ToUpper caseTable x ≠ [] := by
    rw [ToUpper_eq_Map]; exact Map_ne_nil _ x hne
  unfold segments
  rw [Split_of_not_mem colon _ h1]
  simp [h2]

theorem splitGo_pieces (sep : Nat) :
    ∀ (s cur p : GoString), sep ∉ cur → p ∈ splitGo sep s cur → sep ∉ p := by
  intro s
  induction s with
  | nil =>
    intro cur p hcur hp
    simp only [splitGo, List.mem_singleton] at hp
    rw [hp]; exact hcur
  | cons c t ih =>
    intro cur p hcur hp
    unfold splitGo at hp
    split_ifs at hp with hc
    · rcases List.mem_cons.1 hp with rfl | hp'
      · exact hcur
      · exact ih [] p (by simp) hp'
    · refine ih (cur ++ [c]) p ?_ hp
      simp only [List.mem_append, List.mem_singleton, not_or]
      exact ⟨hcur, fun e => hc e.symm⟩

theorem mem_rawSegments (s p : GoString) (h : p ∈ rawSegments s) : p ≠ [] ∧ colon ∉ p := by
  unfold rawSegments at h
  obtain ⟨h1, h2⟩ := List.mem_filter.1 h
  exact ⟨by simpa using h2, splitGo_pieces colon s [] p (by simp) h1⟩

theorem flatMap_singleton_of_forall {α β : Type} (f : α → List β) (g : α → β) :
    ∀ (l : List α), (∀ x ∈ l, f x = [g x]) → l.flatMap f = l.map g := by
  intro l
  induction l with
  | nil => intro _; rfl
  | cons a l ih =>
    intro h
    rw [List.flatMap_cons, h a (by simp), ih (fun x hx => h x (by simp [hx]))]
    rfl

/-- The segments that `Lookup` works on are the non-empty raw segments of the address,
each in upper case. -/
theorem segments_eq_map (caseTable : Nat → Nat)
    (hT : ∀ r, 0x80 ≤ r → caseTable r ≠ colon) (s : GoString) :
    segments caseTable s = (rawSegments s).map (ToUpper caseTable) := by
  rw [segments_eq_flatMap caseTable s.length s (le_refl _)]
  apply flatMap_singleton_of_forall
  intro x hx
  obtain ⟨h1, h2⟩ := mem_rawSegments s x hx
  exact segments_of_segment caseTable hT x h2 h1

/-- C8. An address with fewer than three non-empty colon-separated segments (the empty
string and strings without a colon included) resolves to the not-found error whatever
the mapping holds. The Unicode case tables are only assumed not to upper-case a
non-ASCII character to a colon. -/
theorem resolve_short_address_not_found (caseTable : Nat → Nat)
    (hT : ∀ r, 0x80 ≤ r → caseTable r ≠ colon) (m : Mapping) (mac : GoString)
    (h : (rawSegments mac).length < 3) :
    resolve caseTable m mac = Outcome.error GoError.notFound := by
  have hlen : (segments caseTable mac).length < 3 := by
    rw [segments_eq_map caseTable hT, List.length_map]; exact h
  unfold resolve
  simp only
  rw [if_neg (by omega), if_neg (by omega), if_neg (by omega)]

/-- C8 at the addresses `invalid-mac`, the empty string and `FC:D2`. -/
theorem resolve_short_address_not_found_witness :
    resolve (fun r => r) nestedMapping (str "invalid-mac") = Outcome.error GoError.notFound
      ∧ resolve (fun r => r) nestedMapping (str "") = Outcome.error GoError.notFound
      ∧ resolve (fun r => r) nestedMapping (str "FC:D2") = Outcome.error GoError.notFound :=
  ⟨resolve_short_address_not_found (fun r => r) (fun r hr => by show r ≠ 0x3A; omega)
      nestedMapping (str "invalid-mac") (by decide),
    resolve_short_address_not_found (fun r => r) (fun r hr => by show r ≠ 0x3A; omega)
      nestedMapping (str "") (by decide),
    resolve_short_address_not_found (fun r => r) (fun r hr => by show r ≠ 0x3A; omega)
      nestedMapping (str "FC:D2") (by decide)⟩

/-! ## Theorems: the registry mapping and the loader -/

theorem lookupEntries_setEntries (k v k' : GoString) (es : List (GoString × GoString)) :
    lookupEntries k' (setEntries k v es) = if k = k' then some v else lookupEntries k' es := by
  induction es with
  | nil => simp [setEntries, lookupEntries]
  | cons e es ih =>
    obtain ⟨ke, ve⟩ := e
    by_cases h1 : ke = k
    · subst h1
      by_cases h2 : ke = k'
      · simp [setEntries, lookupEntries, h2]
      · simp [setEntries, lookupEntries, h2]
    · by_cases h2 : ke = k'
      · subst h2
        simp [setEntries, lookupEntries, h1, Ne.symm h1]
      · simp [setEntries, lookupEntries, h1, h2, ih]

theorem Mapping.get_set (m : Mapping) (k v k' : GoString) :
    (m.set k v).get k' = if k = k' then some v else m.get k' :=
  lookupEntries_setEntries k v k' m.entries

theorem length_setEntries (k v : GoString) (es : List (GoString × GoString)) :
    (setEntries k v es).length
      = if (lookupEntries k es).isSome then es.length else es.length + 1 := by
  induction es with
  | nil => simp [setEntries, lookupEntries]
  | cons e es ih =>
    obtain ⟨ke, ve⟩ := e
    by_cases h1 : ke = k
    · simp [setEntries, lookupEntries, h1]
    · simp only [setEntries, lookupEntries, h1, if_false, List.length_cons, ih]
      split_ifs <;> rfl

theorem Mapping.len_set (m : Mapping) (k v : GoString) :
    (m.set k v).len = if (m.get k).isSome then m.len else m.len + 1 :=
  length_setEntries k v m.entries

theorem Mapping.get_empty (k : GoString) : Mapping.empty.get k = none := rfl

/-- The value under a key after a run of assignments: that of the last assignment to the
key, or the earlier value when there is none. -/
theorem get_foldl_set {α : Type} (key val : α → GoString) (k v : GoString) :
    ∀ (ls : List α) (m : Mapping),
      (ls.foldl (fun acc l => acc.set (key l) (val l)) m).get k = some v
        ↔ (∃ pre l post, ls = pre ++ l :: post ∧ key l = k ∧ val l = v
              ∧ ∀ l' ∈ post, key l' ≠ k)
          ∨ ((∀ l ∈ ls, key l ≠ k) ∧ m.get k = some v) := by
  intro ls
  induction ls with
  | nil => intro m; simp
  | cons a ls ih =>
    intro m
    rw [List.foldl_cons, ih, Mapping.get_set]
    constructor
    · rintro (⟨pre, l, post, rfl, h1, h2, h3⟩ | ⟨h1, h2⟩)
      · exact Or.inl ⟨a :: pre, l, post, rfl, h1, h2, h3⟩
      · by_cases ha : key a = k
        · rw [if_pos ha] at h2
          exact Or.inl ⟨[], a, ls, rfl, ha, Option.some.inj h2, h1⟩
        · rw [if_neg ha] at h2
          refine Or.inr ⟨?_, h2⟩
          intro l hl
          rcases List.mem_cons.1 hl with rfl | hl'
          · exact ha
          · exact h1 l hl'
    · rintro (⟨pre, l, post, he, h1, h2, h3⟩ | ⟨h1, h2⟩)
      · cases pre with
        | nil =>
          simp only [List.nil_append, List.cons.injEq] at he
          obtain ⟨rfl, rfl⟩ := he
          exact Or.inr ⟨h3, by rw [if_pos h1, h2]⟩
        | cons b pre =>
          simp only [List.cons_append, List.cons.injEq] at he
          obtain ⟨rfl, rfl⟩ := he
          exact Or.inl ⟨pre, l, post, rfl, h1, h2, h3⟩
      · have ha : key a ≠ k := h1 a (by simp)
        exact Or.inr ⟨fun l hl => h1 l (by simp [hl]), by rw [if_neg ha]; exact h2⟩

theorem get_foldl_set_none {α : Type} (key val : α → GoString) (k : GoString) :
    ∀ (ls : List α) (m : Mapping), (∀ l ∈ ls, key l ≠ k) →
      (ls.foldl (fun acc l => acc.set (key l) (val l)) m).get k = m.get k := by
  intro ls
  induction ls with
  | nil => intro m _; rfl
  | cons a ls ih =>
    intro m h
    rw [List.foldl_cons, ih _ (fun l hl => h l (by simp [hl])), Mapping.get_set,
      if_neg (h a (by simp))]

theorem len_foldl_set {α : Type} (key val : α → GoString) :
    ∀ (ls : List α) (m : Mapping), (ls.map key).Nodup → (∀ l ∈ ls, m.get (key l) = none) →
      (ls.foldl (fun acc l => acc.set (key l) (val l)) m).len = m.len + ls.length := by
  intro ls
  induction ls with
  | nil => intro m _ _; rfl
  | cons a ls ih =>
    intro m hnd hm
    rw [List.map_cons, List.nodup_cons] at hnd
    rw [List.foldl_cons, ih _ hnd.2, Mapping.len_set, hm a (by simp)]
    · simp only [Option.isSome_none, Bool.false_eq_true, if_false, List.length_cons]
      omega
    · intro l hl
      rw [Mapping.get_set, if_neg, hm l (by simp [hl])]
      intro e
      exact hnd.1 (by rw [e]; exact List.mem_map_of_mem key hl)

/-! ### The scan loop -/

theorem loadLine_eq (m : Mapping) (line : GoString) :
    loadLine m line
      = if qualifies line then (normalizedKey line).map (fun k => m.set k (field line 1))
        else some m := by
  unfold loadLine qualifies normalizedKey field
  by_cases h1 : (HasPrefix line (str "#") || decide (TrimSpace line = [])) = true
  · rw [if_pos h1]
    simp only [Bool.or_eq_true, decide_eq_true_eq] at h1
    rcases h1 with h | h <;> simp [h]
  · rw [if_neg h1]
    simp only [Bool.or_eq_true, decide_eq_true_eq, not_or, Bool.not_eq_true] at h1
    by_cases h2 : (Fields line).length < 2
    · simp [h1.1, h1.2, h2, Nat.not_le.2 h2]
    · have h0 : 0 < (Fields line).length := by omega
      have h1' : 1 < (Fields line).length := by omega
      simp only [h2, if_false, h1.1, h1.2, Bool.not_false, decide_False, Bool.and_self,
        Bool.true_and, decide_eq_true_eq, Nat.not_lt.1 h2, if_true, decide_True,
        List.getElem?_eq_getElem h0, List.getElem?_eq_getElem h1', List.getD_eq_getElem _ _ h0,
        List.getD_eq_getElem _ _ h1']
      simp only [bind, Option.bind, pure]
      rcases hk : normalizeMACPrefix (Fields line)[0] with _ | k <;> simp

/-- The scan loop, when it does not panic, assigns the entry of each qualifying line
in turn. -/
theorem loadLines_ok :
    ∀ (lines : List GoString) (m : Mapping), (loadLines m lines).2 = false →
      (∀ l ∈ lines.filter qualifies, (normalizedKey l).isSome) ∧
      (loadLines m lines).1
        = (lines.filter qualifies).foldl
            (fun acc l => acc.set ((normalizedKey l).getD []) (field l 1)) m := by
  intro lines
  induction lines with
  | nil => intro m _; simp [loadLines]
  | cons line rest ih =>
    intro m h
    unfold loadLines at h ⊢
    rw [loadLine_eq] at h ⊢
    by_cases hq : qualifies line = true
    · rw [if_pos hq] at h ⊢
      rcases hk : normalizedKey line with _ | k
      · rw [hk] at h; simp at h
      · rw [hk] at h
        simp only [Option.map_some'] at h ⊢
        obtain ⟨h1, h2⟩ := ih _ h
        rw [List.filter_cons_of_pos hq]
        refine ⟨?_, ?_⟩
        · intro l hl
          rcases List.mem_cons.1 hl with rfl | hl'
          · simp [hk]
          · exact h1 l hl'
        · rw [h2, List.foldl_cons, hk]; rfl
    · rw [if_neg hq] at h ⊢
      simp only at h ⊢
      rw [List.filter_cons_of_neg hq]
      exact ih _ h


theorem updateDatabase_ok_state (w : World) (ouiFile : GoString) (file : FileContent)
    (hf : w.files ouiFile = some file)
    (h : (UpdateDatabase w ouiFile).1 = Outcome.ok ()) :
    (loadLines Mapping.empty (scanLines file)).2 = false ∧ scanErr file = false ∧
      (UpdateDatabase w ouiFile).2.ouiData = (loadLines Mapping.empty (scanLines file)).1 := by
  unfold UpdateDatabase at h ⊢
  rw [hf] at h ⊢
  simp only at h ⊢
  by_cases h1 : (loadLines Mapping.empty (scanLines file)).2 = true
  · rw [if_pos h1] at h; exact absurd h (by simp)
  · rw [if_neg h1] at h ⊢
    by_cases h2 : scanErr file = true
    · rw [if_pos h2] at h; exact absurd h (by simp)
    · rw [if_neg h2]
      exact ⟨by simpa using h1, by simpa using h2, rfl⟩

theorem get_foldl_set_isSome {α : Type} (key val : α → GoString) (k : GoString) :
    ∀ (ls : List α) (m : Mapping), (∃ l ∈ ls, key l = k) →
      ((ls.foldl (fun acc l => acc.set (key l) (val l)) m).get k).isSome = true := by
  intro ls
  induction ls with
  | nil => intro m h; simp at h
  | cons a ls ih =>
    intro m h
    rw [List.foldl_cons]
    by_cases hex : ∃ l ∈ ls, key l = k
    · exact ih _ hex
    · have hno : ∀ l ∈ ls, key l ≠ k := fun l hl e => hex ⟨l, hl, e⟩
      have ha : key a = k := by
        obtain ⟨l, hl, e⟩ := h
        rcases List.mem_cons.1 hl with rfl | hl'
        · exact e
        · exact absurd e (hno l hl')
      rw [get_foldl_set_none key val k ls _ hno, Mapping.get_set, if_pos ha]
      rfl

/-- The mapping built from the qualifying lines, all of which normalize without panic. -/
theorem foldl_entries_spec (ql : List GoString)
    (hsome : ∀ l ∈ ql, (normalizedKey l).isSome = true) :
    (∀ k, ((ql.foldl (fun acc l => acc.set ((normalizedKey l).getD []) (field l 1))
          Mapping.empty).get k).isSome
        ↔ ∃ line ∈ ql, normalizedKey line = some k)
      ∧ (∀ k v, (ql.foldl (fun acc l => acc.set ((normalizedKey l).getD []) (field l 1))
          Mapping.empty).get k = some v
        ↔ ∃ pre line post, ql = pre ++ line :: post
            ∧ normalizedKey line = some k ∧ field line 1 = v
            ∧ ∀ l ∈ post, normalizedKey l ≠ some k)
      ∧ ((ql.map normalizedKey).Nodup
        → (ql.foldl (fun acc l => acc.set ((normalizedKey l).getD []) (field l 1))
          Mapping.empty).len = ql.length) := by
  have hkey : ∀ l ∈ ql, ∀ k, (normalizedKey l).getD [] = k ↔ normalizedKey l = some k := by
    intro l hl k
    rcases hn : normalizedKey l with _ | k'
    · have := hsome l hl; rw [hn] at this; simp at this
    · simp
  have hval : ∀ k v, (List.foldl (fun acc l => acc.set ((normalizedKey l).getD []) (field l 1))
        Mapping.empty ql).get k = some v
      ↔ ∃ pre line post, ql = pre ++ line :: post ∧ normalizedKey line = some k
          ∧ field line 1 = v ∧ ∀ l ∈ post, normalizedKey l ≠ some k := by
    intro k v
    rw [get_foldl_set]
    simp only [Mapping.get_empty, reduceCtorEq, and_false, or_false]
    constructor
    · rintro ⟨pre, l, post, rfl, h1, h2, h3⟩
      refine ⟨pre, l, post, rfl, (hkey l (by simp) k).1 h1, h2, ?_⟩
      intro l' hl' e
      exact h3 l' hl' ((hkey l' (by simp [hl']) k).2 e)
    · rintro ⟨pre, l, post, rfl, h1, h2, h3⟩
      refine ⟨pre, l, post, rfl, (hkey l (by simp) k).2 h1, h2, ?_⟩
      intro l' hl' e
      exact h3 l' hl' ((hkey l' (by simp [hl']) k).1 e)
  refine ⟨?_, hval, ?_⟩
  · intro k
    constructor
    · intro hs
      obtain ⟨v, hv⟩ := Option.isSome_iff_exists.1 hs
      obtain ⟨pre, l, post, rfl, h1, -, -⟩ := (hval k v).1 hv
      exact ⟨l, by simp, h1⟩
    · rintro ⟨l, hl, hk⟩
      exact get_foldl_set_isSome _ _ k ql _ ⟨l, hl, (hkey l hl k).2 hk⟩
  · intro hnd
    have hnd' : (ql.map (fun l => (normalizedKey l).getD [])).Nodup := by
      have : ql.map (fun l => (normalizedKey l).getD [])
          = (ql.map normalizedKey).map (fun o => o.getD []) := by
        rw [List.map_map]; rfl
      rw [this]
      refine List.Nodup.map_on ?_ hnd
      intro x hx y hy hxy
      obtain ⟨lx, hlx, rfl⟩ := List.mem_map.1 hx
      obtain ⟨ly, hly, rfl⟩ := List.mem_map.1 hy
      have hx' := (hkey lx hlx _).1 hxy
      rcases hny : normalizedKey ly with _ | ky
      · have := hsome ly hly; rw [hny] at this; simp at this
      · rw [hx', hny]; simp
    rw [len_foldl_set _ _ ql Mapping.empty hnd' (fun l _ => Mapping.get_empty _)]
    simp [Mapping.len, Mapping.empty]

/-- C4. When `UpdateDatabase` succeeds on a file, the mapping it leaves is exactly this:
a key is present if and only if some qualifying line (not a comment, not blank, at
least two fields) normalizes to it; the value under a key is field 1 of the last such
line; and when the normalized keys of the qualifying lines are pairwise distinct the
number of entries is the number of qualifying lines. -/
theorem updateDatabase_mapping_exact (w : World) (ouiFile : GoString) (file : FileContent)
    (hf : w.files ouiFile = some file)
    (h : (UpdateDatabase w ouiFile).1 = Outcome.ok ()) :
    (∀ k, ((UpdateDatabase w ouiFile).2.ouiData.get k).isSome
        ↔ ∃ line ∈ qualifyingLines file, normalizedKey line = some k)
      ∧ (∀ k v, (UpdateDatabase w ouiFile).2.ouiData.get k = some v
        ↔ ∃ pre line post, qualifyingLines file = pre ++ line :: post
            ∧ normalizedKey line = some k ∧ field line 1 = v
            ∧ ∀ l ∈ post, normalizedKey l ≠ some k)
      ∧ (((qualifyingLines file).map normalizedKey).Nodup
        → (UpdateDatabase w ouiFile).2.ouiData.len = (qualifyingLines file).length) := by
  obtain ⟨h1, -, h3⟩ := updateDatabase_ok_state w ouiFile file hf h
  obtain ⟨hsome, hfold⟩ := loadLines_ok (scanLines file) Mapping.empty h1
  rw [h3, hfold]
  exact foldl_entries_spec (qualifyingLines file) hsome

/-! ### normalizeMACPrefix -/

theorem contains_append_slash (mac rest : GoString) :
    Contains (mac ++ slash :: rest) slash = true := by
  simp [Contains]

theorem split_slash (mac bits : GoString) (hm : slash ∉ mac) (hb : slash ∉ bits) :
    Split (mac ++ slash :: bits) slash = [mac, bits] := by
  rw [Split_append, Split_of_not_mem slash mac hm, Split_of_not_mem slash bits hb]
  rfl

theorem stringOfByte_ascii (d : Nat) (h : d < 0x80) : stringOfByte d = [d] := by
  simp [stringOfByte, encodeRune, RuneSelf, h]

/-- What the code computes for a `/28` specifier with four segments or more, the fourth
non-empty: the first three segments, then `':'` and the conversion `string(D[0])` of the
first byte of the fourth. -/
theorem normalizeMACPrefix_28_code (mac A B C D : GoString) (d : Nat)
    (rest : List GoString) (hmac : slash ∉ mac)
    (hseg : Split mac colon = A :: B :: C :: (d :: D) :: rest) :
    normalizeMACPrefix (mac ++ str "/28")
      = some (Join [A, B, C] (str ":") ++ str ":" ++ stringOfByte d) := by
  have e : mac ++ str "/28" = mac ++ slash :: str "28" := rfl
  unfold normalizeMACPrefix
  rw [e, contains_append_slash, split_slash mac (str "28") hmac (by decide)]
  simp [hseg, sliceTo, sprintfColon]

/-- C5, as stated, fails: the address part `AA:BB:CC:é0` has four segments, the fourth
non-empty, yet `AA:BB:CC:é0/28` normalizes to `AA:BB:CC:Ã` (the byte `0xC3` read as a
code point), which ends neither in the first character `é` of the fourth segment nor in
its first byte. -/
theorem normalizeMACPrefix_28_non_ascii :
    Split (str "AA:BB:CC:é0") colon = [str "AA", str "BB", str "CC", str "é0"]
      ∧ normalizeMACPrefix (str "AA:BB:CC:é0/28") = some (str "AA:BB:CC:Ã")
      ∧ normalizeMACPrefix (str "AA:BB:CC:é0/28") ≠ some (str "AA:BB:CC:é")
      ∧ normalizeMACPrefix (str "AA:BB:CC:é0/28")
          ≠ some (str "AA:BB:CC:" ++ (str "é0").take 1) := by
  decide

/-- C5, amended. For a specifier `A:B:C:D/28` whose address part has at least four
colon-separated segments, the fourth non-empty and starting with an ASCII character
(such as a hex digit), `normalizeMACPrefix` returns the first three segments joined by
`':'`, then `':'` and the first character of `D`. -/
theorem normalizeMACPrefix_28 (mac A B C D : GoString) (d : Nat) (rest : List GoString)
    (hmac : slash ∉ mac)
    (hseg : Split mac colon = A :: B :: C :: (d :: D) :: rest)
    (hd : d < 0x80) :
    normalizeMACPrefix (mac ++ str "/28")
      = some (Join [A, B, C] (str ":") ++ str ":" ++ [d]) := by
  rw [normalizeMACPrefix_28_code mac A B C D d rest hmac hseg, stringOfByte_ascii d hd]

/-- C5, amended, at `FC:D2:B6:00/28`. -/
theorem normalizeMACPrefix_28_witness :
    normalizeMACPrefix (str "FC:D2:B6:00/28") = some (str "FC:D2:B6:0") :=
  normalizeMACPrefix_28 (str "FC:D2:B6:00") (str "FC") (str "D2") (str "B6") (str "0") 0x30 []
    (by decide) (by decide) (by decide)

/-- What the code computes for a `/36` specifier with five segments or more, the fifth
non-empty: the first four segments, then `':'` and the conversion `string(E[0])` of the
first byte of the fifth. -/
theorem normalizeMACPrefix_36_code (mac A B C D E : GoString) (e : Nat)
    (rest : List GoString) (hmac : slash ∉ mac)
    (hseg : Split mac colon = A :: B :: C :: D :: (e :: E) :: rest) :
    normalizeMACPrefix (mac ++ str "/36")
      = some (Join [A, B, C, D] (str ":") ++ str ":" ++ stringOfByte e) := by
  have e' : mac ++ str "/36" = mac ++ slash :: str "36" := rfl
  unfold normalizeMACPrefix
  rw [e', contains_append_slash, split_slash mac (str "36") hmac (by decide)]
  have h2836 : ¬ (str "36" = str "28") := by decide
  simp [hseg, sliceTo, sprintfColon, h2836]

/-- C6, as stated, fails: the address part `AA:BB:CC:DD:é0` has five segments, the fifth
non-empty, yet `AA:BB:CC:DD:é0/36` normalizes to `AA:BB:CC:DD:Ã` (the byte `0xC3` read as
a code point), which ends neither in the first character `é` of the fifth segment nor
in its first byte. -/
theorem normalizeMACPrefix_36_non_ascii :
    Split (str "AA:BB:CC:DD:é0") colon
        = [str "AA", str "BB", str "CC", str "DD", str "é0"]
      ∧ normalizeMACPrefix (str "AA:BB:CC:DD:é0/36") = some (str "AA:BB:CC:DD:Ã")
      ∧ normalizeMACPrefix (str "AA:BB:CC:DD:é0/36") ≠ some (str "AA:BB:CC:DD:é")
      ∧ normalizeMACPrefix (str "AA:BB:CC:DD:é0/36")
          ≠ some (str "AA:BB:CC:DD:" ++ (str "é0").take 1) := by
  decide

/-- C6, amended. For a specifier `A:B:C:D:E/36` whose address part has at least five
colon-separated segments, the fifth non-empty and starting with an ASCII character
(such as a hex digit), `normalizeMACPrefix` returns the first four segments joined by
`':'`, then `':'` and the first character of `E`. -/
theorem normalizeMACPrefix_36 (mac A B C D E : GoString) (e : Nat) (rest : List GoString)
    (hmac : slash ∉ mac)
    (hseg : Split mac colon = A :: B :: C :: D :: (e :: E) :: rest)
    (he : e < 0x80) :
    normalizeMACPrefix (mac ++ str "/36")
      = some (Join [A, B, C, D] (str ":") ++ str ":" ++ [e]) := by
  rw [normalizeMACPrefix_36_code mac A B C D E e rest hmac hseg, stringOfByte_ascii e he]

/-- C6, amended, at `8C:1F:64:DC:70/36`. -/
theorem normalizeMACPrefix_36_witness :
    normalizeMACPrefix (str "8C:1F:64:DC:70/36") = some (str "8C:1F:64:DC:7") :=
  normalizeMACPrefix_36 (str "8C:1F:64:DC:70") (str "8C") (str "1F") (str "64") (str "DC")
    (str "0") 0x37 [] (by decide) (by decide) (by decide)

/-- C4 on the sample data of the tests: five qualifying lines, five entries. -/
theorem updateDatabase_mapping_exact_witness :
    (UpdateDatabase testWorld testFile).2.ouiData.len = 5 :=
  ((updateDatabase_mapping_exact testWorld testFile ⟨sampleData, false⟩
    (by simp only [testWorld, if_true]) (by decide)).2.2 (by decide)).trans (by decide)

/-- C7, the failing input. A first field `FC:D2/28`, `FC:D2:B6:/28`, `8C:1F:64:DC/36` or
`8C:1F:64:DC:/36` makes `normalizeMACPrefix` panic, so `UpdateDatabase` on a registry
whose first line is `FC:D2/28 Foo` panics and the well-formed line after it is not
loaded. -/
theorem updateDatabase_panics_on_short_specifier :
    normalizeMACPrefix (str "FC:D2/28") = none
      ∧ normalizeMACPrefix (str "FC:D2:B6:/28") = none
      ∧ normalizeMACPrefix (str "8C:1F:64:DC/36") = none
      ∧ normalizeMACPrefix (str "8C:1F:64:DC:/36") = none
      ∧ (UpdateDatabase malformedWorld cacheFile).1 = Outcome.crash
      ∧ (UpdateDatabase malformedWorld cacheFile).2.ouiData.get (str "00:00:00") = none := by
  decide

/-! ## Theorems: Lookup as a whole -/

/-- When the cached registry file can be opened, `Lookup` downloads nothing: it reloads
that file into `ouiData` and resolves against the reloaded mapping, whatever `ouiData`
held before the call. -/
theorem Lookup_of_cached (caseTable : Nat → Nat)
    (downloadManufDB : FileSystem → Option GoError × FileSystem) (w : World)
    (mac : GoString) (file : FileContent) (hf : w.files cacheFile = some file)
    (hok : (UpdateDatabase w cacheFile).1 = Outcome.ok ()) :
    Lookup caseTable downloadManufDB w mac
      = (resolve caseTable (loadLines Mapping.empty (scanLines file)).1 mac,
          { w with ouiData := (loadLines Mapping.empty (scanLines file)).1 }) := by
  obtain ⟨h1, h2, -⟩ := updateDatabase_ok_state w cacheFile file hf hok
  unfold Lookup loadAndResolve UpdateDatabase
  simp only [hf, h1, h2, Bool.false_eq_true, if_false]

/-- C3, the failing input. After `UpdateDatabase` has loaded the sample data from the
temporary file of the tests, the mapping holds `Soma` under `FC:D2:B6:2`; yet `Lookup`
of `fc:d2:b6:20:11:22` reloads the cached registry file: it returns the open error when
that file is missing and the download fails, and the label of the cached file when that
file holds another registry. -/
theorem lookup_resolves_against_cache_file :
    (UpdateDatabase testWorld testFile).1 = Outcome.ok ()
      ∧ (UpdateDatabase testWorld testFile).2.ouiData.get (str "FC:D2:B6:2")
          = some (str "Soma")
      ∧ (Lookup (fun r => r) offline (UpdateDatabase testWorld testFile).2
          (str "fc:d2:b6:20:11:22")).1 = Outcome.error GoError.openFailed
      ∧ (UpdateDatabase staleCacheWorld testFile).1 = Outcome.ok ()
      ∧ (Lookup (fun r => r) offline (UpdateDatabase staleCacheWorld testFile).2
          (str "fc:d2:b6:20:11:22")).1 = Outcome.ok (str "Other") := by
  decide

/-! ## Theorems: the remaining cases of normalizeMACPrefix, reload and download -/

/-- C11. For every specifier that contains no `'/'`, `normalizeMACPrefix` returns its
input unchanged. -/
theorem normalizeMACPrefix_no_slash (p : GoString) (h : slash ∉ p) :
    normalizeMACPrefix p = some p := by
  unfold normalizeMACPrefix
  have : Contains p slash = false := by simpa [Contains] using h
  simp [this]

/-- C11 at `00:00:00`. -/
theorem normalizeMACPrefix_no_slash_witness :
    normalizeMACPrefix (str "00:00:00") = some (str "00:00:00") :=
  normalizeMACPrefix_no_slash (str "00:00:00") (by decide)

theorem splitGo_head (sep : Nat) :
    ∀ (s cur : GoString),
      (splitGo sep s cur)[0]? = some (cur ++ s.takeWhile (fun c => decide (c ≠ sep))) := by
  intro s
  induction s with
  | nil => intro cur; simp [splitGo]
  | cons c t ih =>
    intro cur
    by_cases hc : c = sep
    · simp [splitGo, hc]
    · simp [splitGo, hc, ih, List.takeWhile]

/-- C12. For every specifier that contains a `'/'` and whose bit count is neither `28`
nor `36`, `normalizeMACPrefix` returns the address portion, the text before the first
`'/'`, unchanged and without panic, whatever the number of octets in it. -/
theorem normalizeMACPrefix_other_bits (mac rest : GoString) (hmac : slash ∉ mac)
    (h28 : bitCount rest ≠ str "28") (h36 : bitCount rest ≠ str "36") :
    normalizeMACPrefix (mac ++ slash :: rest) = some mac := by
  unfold normalizeMACPrefix
  rw [contains_append_slash, Split_append, Split_of_not_mem slash mac hmac]
  have hb : (Split rest slash)[0]? = some (bitCount rest) := by
    have := splitGo_head slash rest []
    simpa [Split, bitCount] using this
  simp only [if_true, List.singleton_append, List.getElem?_cons_zero, List.getElem?_cons_succ, hb,
    Option.bind_eq_bind, Option.some_bind, h28, h36, if_false]
  rfl

/-- C12 at `AA:BB:CC:DD/32` and `AA/24`. -/
theorem normalizeMACPrefix_other_bits_witness :
    normalizeMACPrefix (str "AA:BB:CC:DD/32") = some (str "AA:BB:CC:DD")
      ∧ normalizeMACPrefix (str "AA/24") = some (str "AA") :=
  ⟨normalizeMACPrefix_other_bits (str "AA:BB:CC:DD") (str "32") (by decide) (by decide)
      (by decide),
    normalizeMACPrefix_other_bits (str "AA") (str "24") (by decide) (by decide) (by decide)⟩

/-- C16. When the registry file cannot be opened, `UpdateDatabase` returns the open error
and leaves the world, the mapping held before included, as it was. -/
theorem updateDatabase_open_error (w : World) (ouiFile : GoString)
    (h : w.files ouiFile = none) :
    UpdateDatabase w ouiFile = (Outcome.error GoError.openFailed, w) := by
  unfold UpdateDatabase
  rw [h]

/-- C16 at the path `nonexistentfile.db` of the tests. -/
theorem updateDatabase_open_error_witness :
    UpdateDatabase reloadWorld (str "nonexistentfile.db")
      = (Outcome.error GoError.openFailed, reloadWorld) :=
  updateDatabase_open_error reloadWorld (str "nonexistentfile.db") (by decide)

theorem updateDatabase_outcome (w : World) (ouiFile : GoString) (file : FileContent)
    (hf : w.files ouiFile = some file) :
    UpdateDatabase w ouiFile
      = (if (loadLines Mapping.empty (scanLines file)).2 then Outcome.crash
         else if scanErr file then Outcome.error GoError.readFailed else Outcome.ok (),
        { w with ouiData := (loadLines Mapping.empty (scanLines file)).1 }) := by
  unfold UpdateDatabase
  rw [hf]
  simp only
  split_ifs <;> rfl

/-- C19. In `Lookup`, when the cached registry file cannot be opened, the download is
attempted: if it succeeds `Lookup` returns an error at once, with `ouiData` untouched and
no address resolved; if it reports a failure `Lookup` goes on to load the cache file and
resolve. Hence `Lookup` returns an error whenever the cache file is missing and is still
missing after the download. -/
theorem lookup_download_inverted (caseTable : Nat → Nat)
    (downloadManufDB : FileSystem → Option GoError × FileSystem) (w : World)
    (mac : GoString) (h : w.files cacheFile = none) :
    ((downloadManufDB w.files).1 = none →
        Lookup caseTable downloadManufDB w mac
          = (Outcome.error GoError.downloadReported,
              { w with files := (downloadManufDB w.files).2 }))
      ∧ ((downloadManufDB w.files).1 ≠ none →
        Lookup caseTable downloadManufDB w mac
          = loadAndResolve caseTable { w with files := (downloadManufDB w.files).2 } mac)
      ∧ ((downloadManufDB w.files).2 cacheFile = none →
        ∃ e, (Lookup caseTable downloadManufDB w mac).1 = Outcome.error e) := by
  refine ⟨?_, ?_, ?_⟩
  · intro hd
    unfold Lookup
    rw [h]
    simp only [hd, if_true]
  · intro hd
    unfold Lookup
    rw [h]
    simp only [hd, if_false]
  · intro hmiss
    unfold Lookup
    rw [h]
    simp only
    split_ifs with hd
    · exact ⟨_, rfl⟩
    · unfold loadAndResolve UpdateDatabase
      simp only [hmiss]
      exact ⟨_, rfl⟩

/-- C19 with no cache file: a download that succeeds, and one that fails. -/
theorem lookup_download_inverted_witness :
    (Lookup (fun r => r) downloadOk testWorld (str "00:00:00:00:00:00")).1
        = Outcome.error GoError.downloadReported
      ∧ (Lookup (fun r => r) offline testWorld (str "00:00:00:00:00:00")).1
        = Outcome.error GoError.openFailed :=
  ⟨congrArg Prod.fst ((lookup_download_inverted (fun r => r) downloadOk testWorld
      (str "00:00:00:00:00:00") (by decide)).1 rfl),
    (congrArg Prod.fst ((lookup_download_inverted (fun r => r) offline testWorld
      (str "00:00:00:00:00:00") (by decide)).2.1 (by decide))).trans (by decide)⟩

/-- C20. The resolution step of `Lookup` is total: for every mapping and every address
it ends in a label or in the not-found error, never in a panic, because each candidate
key is built without index or slice out of range in the case that uses it. -/
theorem resolve_total (caseTable : Nat → Nat) (m : Mapping) (mac : GoString) :
    ((∃ label, resolve caseTable m mac = Outcome.ok label)
        ∨ resolve caseTable m mac = Outcome.error GoError.notFound)
      ∧ (5 ≤ (segments caseTable mac).length →
          (key36 (segments caseTable mac)).isSome = true)
      ∧ (4 ≤ (segments caseTable mac).length →
          (key28 (segments caseTable mac)).isSome = true)
      ∧ (3 ≤ (segments caseTable mac).length →
          (key24 (segments caseTable mac)).isSome = true) := by
  have hne := ne_nil_of_mem_segments caseTable mac
  refine ⟨?_, ?_, ?_, ?_⟩
  · rw [resolve_eq_findSome]
    rcases (specCandidates (segments caseTable mac)).findSome? m.get with _ | v
    · exact Or.inr rfl
    · exact Or.inl ⟨v, rfl⟩
  · intro h; rw [key36_eq _ h hne]; rfl
  · intro h; rw [key28_eq _ h hne]; rfl
  · intro h; rw [key24_eq _ h]; rfl

/-- After a successful load the mapping is the fold of the assignments of the qualifying
lines, each of which normalizes without panic. -/
theorem updateDatabase_ok_fold (w : World) (ouiFile : GoString) (file : FileContent)
    (hf : w.files ouiFile = some file)
    (h : (UpdateDatabase w ouiFile).1 = Outcome.ok ()) :
    (∀ l ∈ qualifyingLines file, (normalizedKey l).isSome = true)
      ∧ (UpdateDatabase w ouiFile).2.ouiData
        = (qualifyingLines file).foldl
            (fun acc l => acc.set ((normalizedKey l).getD []) (field l 1)) Mapping.empty := by
  obtain ⟨hno, -, hst⟩ := updateDatabase_ok_state w ouiFile file hf h
  obtain ⟨hsome, hfold⟩ := loadLines_ok (scanLines file) Mapping.empty hno
  exact ⟨hsome, hst.trans hfold⟩

/-- C13. Reload replaces the mapping wholesale: on success the mapping after the load is
the one obtained by loading the same source into an empty state, whatever was held
before; hence a key that no qualifying line of the new source yields is absent, and an
address all of whose candidate keys are such keys is no longer resolvable. -/
theorem updateDatabase_replaces_mapping (caseTable : Nat → Nat) (w : World)
    (ouiFile : GoString) (file : FileContent) (hf : w.files ouiFile = some file)
    (h : (UpdateDatabase w ouiFile).1 = Outcome.ok ()) :
    (UpdateDatabase w ouiFile).2.ouiData
        = (UpdateDatabase { w with ouiData := Mapping.empty } ouiFile).2.ouiData
      ∧ (∀ k, (∀ line ∈ qualifyingLines file, normalizedKey line ≠ some k) →
          (UpdateDatabase w ouiFile).2.ouiData.get k = none)
      ∧ (∀ mac, (∀ k ∈ specCandidates (segments caseTable mac),
            ∀ line ∈ qualifyingLines file, normalizedKey line ≠ some k) →
          resolve caseTable (UpdateDatabase w ouiFile).2.ouiData mac
            = Outcome.error GoError.notFound) := by
  have hkey : ∀ k, (∀ line ∈ qualifyingLines file, normalizedKey line ≠ some k) →
      (UpdateDatabase w ouiFile).2.ouiData.get k = none := by
    intro k hk
    obtain ⟨hsome, hfold⟩ := updateDatabase_ok_fold w ouiFile file hf h
    have h1 := (foldl_entries_spec (qualifyingLines file) hsome).1 k
    rw [← hfold] at h1
    rcases hg : (UpdateDatabase w ouiFile).2.ouiData.get k with _ | v
    · rfl
    · rw [hg] at h1
      obtain ⟨line, hl, hn⟩ := h1.1 rfl
      exact absurd hn (hk line hl)
  refine ⟨?_, hkey, ?_⟩
  · rw [updateDatabase_outcome w ouiFile file hf,
      updateDatabase_outcome { w with ouiData := Mapping.empty } ouiFile file hf]
  · intro mac hmac
    rw [resolve_eq_findSome]
    have : (specCandidates (segments caseTable mac)).findSome?
        (UpdateDatabase w ouiFile).2.ouiData.get = none :=
      List.findSome?_eq_none_iff.2 (fun k hk => hkey k (hmac k hk))
    rw [this]

/-- C13 on a world that holds the key `AA:BB:CC` from an earlier load, reloaded with the
sample data. -/
theorem updateDatabase_replaces_mapping_witness :
    resolve (fun r => r) (UpdateDatabase reloadWorld testFile).2.ouiData
      (str "AA:BB:CC:00:00:00") = Outcome.error GoError.notFound :=
  (updateDatabase_replaces_mapping (fun r => r) reloadWorld testFile ⟨sampleData, false⟩
    (by simp only [reloadWorld, testWorld, if_true]) (by decide)).2.2
    (str "AA:BB:CC:00:00:00") (by decide)

/-! ## Theorems: failed loads and the state after Lookup -/

/-- C15, as stated, fails: a load that ends in a read error after one complete line
returns the error and leaves in `ouiData` the entry of that line; the mapping held
before the load is gone. -/
theorem updateDatabase_scan_error_not_atomic :
    (UpdateDatabase brokenReadWorld cacheFile).1 = Outcome.error GoError.readFailed
      ∧ brokenReadWorld.ouiData.get (str "AA:BB:CC") = some (str "Old")
      ∧ (UpdateDatabase brokenReadWorld cacheFile).2.ouiData.get (str "AA:BB:CC") = none
      ∧ (UpdateDatabase brokenReadWorld cacheFile).2.ouiData.get (str "00:00:00")
          = some (str "Xerox")
      ∧ (UpdateDatabase brokenReadWorld cacheFile).2.ouiData ≠ brokenReadWorld.ouiData := by
  decide

theorem updateDatabase_error_state (w : World) (ouiFile : GoString) (file : FileContent)
    (hf : w.files ouiFile = some file)
    (h : (UpdateDatabase w ouiFile).1 = Outcome.error GoError.readFailed) :
    (loadLines Mapping.empty (scanLines file)).2 = false ∧ scanErr file = true := by
  rw [updateDatabase_outcome w ouiFile file hf] at h
  simp only at h
  by_cases h1 : (loadLines Mapping.empty (scanLines file)).2 = true
  · rw [if_pos h1] at h; exact absurd h (by simp)
  · rw [if_neg h1] at h
    by_cases h2 : scanErr file = true
    · exact ⟨by simpa using h1, h2⟩
    · rw [if_neg h2] at h; exact absurd h (by simp)

/-- C15, amended. A failed load is not atomic: when `UpdateDatabase` fails with a scan
error, the mapping it leaves does not depend on the mapping held before, it is the one
built from the lines read before the error (the value under a key is field 1 of the
last qualifying line read that normalizes to it). `Lookup` does not resolve against
it: when the load of the cache file fails so, `Lookup` returns that error. -/
theorem updateDatabase_scan_error_state (caseTable : Nat → Nat)
    (downloadManufDB : FileSystem → Option GoError × FileSystem) (w : World)
    (ouiFile : GoString) (file : FileContent) (hf : w.files ouiFile = some file)
    (h : (UpdateDatabase w ouiFile).1 = Outcome.error GoError.readFailed) :
    (UpdateDatabase w ouiFile).2.ouiData
        = (UpdateDatabase { w with ouiData := Mapping.empty } ouiFile).2.ouiData
      ∧ (∀ k v, (UpdateDatabase w ouiFile).2.ouiData.get k = some v
        ↔ ∃ pre line post, qualifyingLines file = pre ++ line :: post
            ∧ normalizedKey line = some k ∧ field line 1 = v
            ∧ ∀ l ∈ post, normalizedKey l ≠ some k)
      ∧ (ouiFile = cacheFile → ∀ mac,
          (Lookup caseTable downloadManufDB w mac).1 = Outcome.error GoError.readFailed) := by
  obtain ⟨hno, herr⟩ := updateDatabase_error_state w ouiFile file hf h
  obtain ⟨hsome, hfold⟩ := loadLines_ok (scanLines file) Mapping.empty hno
  refine ⟨?_, ?_, ?_⟩
  · rw [updateDatabase_outcome w ouiFile file hf,
      updateDatabase_outcome { w with ouiData := Mapping.empty } ouiFile file hf]
  · have hst : (UpdateDatabase w ouiFile).2.ouiData
        = (qualifyingLines file).foldl
            (fun acc l => acc.set ((normalizedKey l).getD []) (field l 1)) Mapping.empty := by
      rw [updateDatabase_outcome w ouiFile file hf]; exact hfold
    rw [hst]
    exact (foldl_entries_spec (qualifyingLines file) hsome).2.1
  · rintro rfl mac
    unfold Lookup loadAndResolve
    rw [hf]
    simp only
    rw [updateDatabase_outcome w cacheFile file hf]
    simp only [hno, herr, Bool.false_eq_true, if_false, if_true]

/-- C15, amended, on a cache file that breaks off with a read error. -/
theorem updateDatabase_scan_error_state_witness :
    (Lookup (fun r => r) offline brokenReadWorld (str "00:00:00:11:22:33")).1
      = Outcome.error GoError.readFailed :=
  (updateDatabase_scan_error_state (fun r => r) offline brokenReadWorld cacheFile
    ⟨str "00:00:00 Xerox\nFC:D2:B6:00/28 Cg", true⟩ rfl (by decide)).2.2 rfl
    (str "00:00:00:11:22:33")

/-- C17, the failing input. After `UpdateDatabase` has loaded the five entries of the
sample data, one call of `Lookup` replaces `ouiData` by the single entry of the cached
registry file (and answers not-found for an address of the sample data): the mapping
after the call is not the mapping before it. -/
theorem lookup_replaces_mapping :
    (UpdateDatabase staleCacheWorld testFile).1 = Outcome.ok ()
      ∧ (UpdateDatabase staleCacheWorld testFile).2.ouiData.len = 5
      ∧ (UpdateDatabase staleCacheWorld testFile).2.ouiData.get (str "00:00:00")
          = some (str "00:00:00")
      ∧ (Lookup (fun r => r) offline (UpdateDatabase staleCacheWorld testFile).2
          (str "00:00:00:AA:BB:CC")).1 = Outcome.error GoError.notFound
      ∧ (Lookup (fun r => r) offline (UpdateDatabase staleCacheWorld testFile).2
          (str "00:00:00:AA:BB:CC")).2.ouiData
          = ⟨[(str "FC:D2:B6:2", str "Other")]⟩
      ∧ (Lookup (fun r => r) offline (UpdateDatabase staleCacheWorld testFile).2
          (str "00:00:00:AA:BB:CC")).2.ouiData
          ≠ (UpdateDatabase staleCacheWorld testFile).2.ouiData := by
  decide

/-! ## Theorems: what the keys of a loaded mapping are -/

/-- Every key of the mapping left by the scan loop was in the mapping at the start or is
the normalized field 0 of a qualifying line. -/
theorem loadLines_keys (P : GoString → Prop) :
    ∀ (lines : List GoString) (m : Mapping),
      (∀ line ∈ lines, qualifies line = true → ∀ k, normalizedKey line = some k → P k) →
      (∀ k, (m.get k).isSome = true → P k) →
      ∀ k, ((loadLines m lines).1.get k).isSome = true → P k := by
  intro lines
  induction lines with
  | nil => intro m _ hm k hk; exact hm k hk
  | cons line rest ih =>
    intro m hl hm k hk
    unfold loadLines at hk
    rw [loadLine_eq] at hk
    by_cases hq : qualifies line = true
    · rw [if_pos hq] at hk
      rcases hn : normalizedKey line with _ | key
      · rw [hn] at hk
        exact hm k hk
      · rw [hn] at hk
        simp only [Option.map_some'] at hk
        refine ih _ (fun l hl' => hl l (by simp [hl'])) ?_ k hk
        intro k' hk'
        rw [Mapping.get_set] at hk'
        by_cases he : key = k'
        · rw [← he]; exact hl line (by simp) hq key hn
        · rw [if_neg he] at hk'; exact hm k' hk'
    · rw [if_neg hq] at hk
      exact ih _ (fun l hl' => hl l (by simp [hl'])) hm k hk

/-- Every key of the mapping that `UpdateDatabase` leaves is the normalized field 0 of a
qualifying line of the file. -/
theorem updateDatabase_keys (P : GoString → Prop) (w : World) (ouiFile : GoString)
    (file : FileContent) (hf : w.files ouiFile = some file)
    (hsrc : ∀ line ∈ qualifyingLines file, ∀ k, normalizedKey line = some k → P k) :
    ∀ k, ((UpdateDatabase w ouiFile).2.ouiData.get k).isSome = true → P k := by
  rw [updateDatabase_outcome w ouiFile file hf]
  refine loadLines_keys P (scanLines file) Mapping.empty ?_ ?_
  · intro line hl hq k hk
    exact hsrc line (List.mem_filter.2 ⟨hl, hq⟩) k hk
  · intro k hk
    rw [Mapping.get_empty] at hk
    exact absurd hk (by simp)

theorem splitGo_bytes (sep : Nat) :
    ∀ (s cur p : GoString), p ∈ splitGo sep s cur → ∀ c ∈ p, c ∈ cur ∨ c ∈ s := by
  intro s
  induction s with
  | nil =>
    intro cur p hp c hc
    simp only [splitGo, List.mem_singleton] at hp
    subst hp
    exact Or.inl hc
  | cons a t ih =>
    intro cur p hp c hc
    unfold splitGo at hp
    split_ifs at hp with ha
    · rcases List.mem_cons.1 hp with rfl | hp'
      · exact Or.inl hc
      · rcases ih [] p hp' c hc with h | h
        · simp at h
        · exact Or.inr (by simp [h])
    · rcases ih (cur ++ [a]) p hp c hc with h | h
      · rcases List.mem_append.1 h with h' | h'
        · exact Or.inl h'
        · exact Or.inr (by simp at h'; simp [h'])
      · exact Or.inr (by simp [h])

theorem Split_bytes (s p : GoString) (sep c : Nat) (hp : p ∈ Split s sep) (hc : c ∈ p) :
    c ∈ s := by
  rcases splitGo_bytes sep s [] p hp c hc with h | h
  · simp at h
  · exact h

theorem Join_bytes (sep : GoString) :
    ∀ (elems : List GoString) (c : Nat), c ∈ Join elems sep →
      c ∈ sep ∨ ∃ e ∈ elems, c ∈ e := by
  intro elems
  induction elems with
  | nil => intro c hc; simp [Join] at hc
  | cons e rest ih =>
    intro c hc
    cases rest with
    | nil =>
      simp only [Join] at hc
      exact Or.inr ⟨e, by simp, hc⟩
    | cons e' rest' =>
      simp only [Join, List.mem_append] at hc
      rcases hc with (h | h) | h
      · exact Or.inr ⟨e, by simp, h⟩
      · exact Or.inl h
      · rcases ih c h with h' | ⟨x, hx, hcx⟩
        · exact Or.inl h'
        · exact Or.inr ⟨x, by simp [hx], hcx⟩

theorem encodeRune_bytes (r b : Nat) (hb : b ∈ encodeRune r) : (b = r ∧ r < 0x80) ∨ 0x80 ≤ b := by
  unfold encodeRune at hb
  split_ifs at hb with h1 h2 h3 h4
  · simp only [List.mem_singleton] at hb
    exact Or.inl ⟨hb, by simpa [RuneSelf] using h1⟩
  all_goals
    right
    simp only [List.mem_cons, List.mem_singleton, List.not_mem_nil, or_false] at hb
    rcases hb with rfl | rfl | rfl | rfl <;> first | exact le_trans (by decide) (le_or_left _ _) | decide

/-- The bytes of a normalized key: bytes of the specifier, colons, and (for a `/28` or
`/36` specifier whose last segment starts with a byte at or above `0x80`) bytes at or
above `0x80`. -/
theorem normalizeMACPrefix_bytes (Q : Nat → Prop) (hcolon : Q colon)
    (hhigh : ∀ b, 0x80 ≤ b → Q b) (f0 k : GoString) (hin : ∀ c ∈ f0, Q c)
    (hn : normalizeMACPrefix f0 = some k) : ∀ c ∈ k, Q c := by
  have hsep : ∀ c ∈ str ":", Q c := by
    intro c hc
    have : c = colon := by simpa [str, encodeRune, RuneSelf, colon] using hc
    rw [this]; exact hcolon
  have hkey : ∀ (macParts hd : List GoString) (seg : GoString) (d : Nat),
      (∀ p ∈ macParts, ∀ c ∈ p, Q c) → (∀ p ∈ hd, p ∈ macParts) → seg ∈ macParts → d ∈ seg →
      ∀ c ∈ sprintfColon (Join hd (str ":")) (stringOfByte d), Q c := by
    intro macParts hd seg d hmp hhd hseg hd' c hc
    simp only [sprintfColon, List.mem_append] at hc
    rcases hc with (h | h) | h
    · rcases Join_bytes _ _ _ h with h' | ⟨e, he, hce⟩
      · exact hsep c h'
      · exact hmp e (hhd e he) c hce
    · exact hsep c h
    · rcases encodeRune_bytes d c h with ⟨rfl, -⟩ | h'
      · exact hmp seg hseg c hd'
      · exact hhigh c h'
  unfold normalizeMACPrefix at hn
  by_cases hc : Contains f0 slash = true
  · rw [if_pos hc] at hn
    rcases h0 : (Split f0 slash)[0]? with _ | mac
    · simp [h0] at hn
    rcases h1 : (Split f0 slash)[1]? with _ | bits
    · simp [h0, h1] at hn
    have hmac : ∀ c ∈ mac, Q c := fun c hc' =>
      hin c (Split_bytes f0 mac slash c (List.getElem?_mem h0) hc')
    have hmp : ∀ p ∈ Split mac colon, ∀ c ∈ p, Q c := fun p hp c hc' =>
      hmac c (Split_bytes mac p colon c hp hc')
    simp only [h0, h1, Option.bind_eq_bind, Option.some_bind] at hn
    by_cases h28 : bits = str "28"
    · rw [if_pos h28] at hn
      rcases hs : sliceTo (Split mac colon) 3 with _ | hd
      · simp [hs] at hn
      rcases hg : (Split mac colon)[3]? with _ | seg
      · simp [hs, hg] at hn
      rcases hz : seg[0]? with _ | d
      · simp [hs, hg, hz] at hn
      simp only [hs, hg, hz, Option.some_bind, Option.pure_def, Option.some.injEq] at hn
      rw [← hn]
      refine hkey (Split mac colon) hd seg d hmp ?_ (List.getElem?_mem hg)
        (List.getElem?_mem hz)
      intro p hp
      unfold sliceTo at hs
      split_ifs at hs
      simp only [Option.some.injEq] at hs
      rw [← hs] at hp
      exact List.mem_of_mem_take hp
    · rw [if_neg h28] at hn
      by_cases h36 : bits = str "36"
      · rw [if_pos h36] at hn
        rcases hs : sliceTo (Split mac colon) 4 with _ | hd
        · simp [hs] at hn
        rcases hg : (Split mac colon)[4]? with _ | seg
        · simp [hs, hg] at hn
        rcases hz : seg[0]? with _ | d
        · simp [hs, hg, hz] at hn
        simp only [hs, hg, hz, Option.some_bind, Option.pure_def, Option.some.injEq] at hn
        rw [← hn]
        refine hkey (Split mac colon) hd seg d hmp ?_ (List.getElem?_mem hg)
          (List.getElem?_mem hz)
        intro p hp
        unfold sliceTo at hs
        split_ifs at hs
        simp only [Option.some.injEq] at hs
        rw [← hs] at hp
        exact List.mem_of_mem_take hp
      · rw [if_neg h36] at hn
        simp only [Option.pure_def, Option.some.injEq] at hn
        rw [← hn]; exact hmac
  · rw [if_neg hc] at hn
    simp only [Option.some.injEq] at hn
    rw [← hn]; exact hin

theorem noLower_iff (s : GoString) : noLower s = true ↔ ∀ c ∈ s, isLowerASCII c = false := by
  simp [noLower, List.all_eq_true]

/-- C14, as stated, fails: a registry line written in lower-case hex, `fc:d2:b6:00/28 Cg`,
loads under the key `fc:d2:b6:0`, which holds lower-case letters; there is no entry
under `FC:D2:B6:0`. -/
theorem updateDatabase_keeps_lower_case_key :
    (UpdateDatabase lowercaseWorld cacheFile).1 = Outcome.ok ()
      ∧ (UpdateDatabase lowercaseWorld cacheFile).2.ouiData.get (str "fc:d2:b6:0")
          = some (str "Cg")
      ∧ noLower (str "fc:d2:b6:0") = false
      ∧ (UpdateDatabase lowercaseWorld cacheFile).2.ouiData.get (str "FC:D2:B6:0") = none := by
  decide

/-- C14, amended. The loader converts no case: when field 0 of every qualifying line of
the source holds no lower-case ASCII letter, every key of the mapping that
`UpdateDatabase` leaves holds none either. -/
theorem updateDatabase_keys_keep_case (w : World) (ouiFile : GoString) (file : FileContent)
    (hf : w.files ouiFile = some file)
    (hsrc : ∀ line ∈ qualifyingLines file, noLower (field line 0) = true) :
    ∀ k, ((UpdateDatabase w ouiFile).2.ouiData.get k).isSome = true → noLower k = true := by
  refine updateDatabase_keys (fun k => noLower k = true) w ouiFile file hf ?_
  intro line hl k hk
  rw [noLower_iff]
  refine normalizeMACPrefix_bytes (fun c => isLowerASCII c = false) (by decide) ?_
    (field line 0) k ((noLower_iff _).1 (hsrc line hl)) hk
  intro b hb
  simp only [isLowerASCII, Bool.and_eq_false_iff, decide_eq_false_iff_not]
  omega

/-- C14, amended, on the sample data of the tests. -/
theorem updateDatabase_keys_keep_case_witness :
    noLower (str "FC:D2:B6:2") = true :=
  updateDatabase_keys_keep_case testWorld testFile ⟨sampleData, false⟩
    (by simp only [testWorld, if_true]) (by decide) (str "FC:D2:B6:2") (by decide)

/-! ## Theorems: the shapes of the keys -/

theorem splitGo_ne_nil (sep : Nat) : ∀ (s cur : GoString), splitGo sep s cur ≠ [] := by
  intro s
  induction s with
  | nil => intro cur; simp [splitGo]
  | cons c t ih =>
    intro cur
    unfold splitGo
    split_ifs
    · simp
    · exact ih _

theorem Join_cons_cons (e e' : GoString) (rest : List GoString) (sep : GoString) :
    Join (e :: e' :: rest) sep = e ++ sep ++ Join (e' :: rest) sep := by
  simp [Join]

theorem Join_splitGo (sep : Nat) :
    ∀ (s cur : GoString), Join (splitGo sep s cur) [sep] = cur ++ s := by
  intro s
  induction s with
  | nil => intro cur; simp [splitGo, Join]
  | cons c t ih =>
    intro cur
    unfold splitGo
    split_ifs with hc
    · rcases hs : splitGo sep t [] with _ | ⟨e', rest⟩
      · exact absurd hs (splitGo_ne_nil sep t [])
      · rw [Join_cons_cons, ← hs, ih]
        simp [hc]
    · rw [ih]; simp

/-- Joining the pieces of a split with the separator gives the string back. -/
theorem Join_Split (s : GoString) (sep : Nat) : Join (Split s sep) [sep] = s := by
  simpa using Join_splitGo sep s []

theorem Split_singleton (s x : GoString) (sep : Nat) (h : Split s sep = [x]) :
    sep ∉ s ∧ x = s := by
  have hj := Join_Split s sep
  rw [h] at hj
  simp only [Join] at hj
  refine ⟨?_, hj⟩
  intro hmem
  obtain ⟨a, b, rfl, -⟩ := List.eq_append_cons_of_mem hmem
  rw [Split_append] at h
  have := congrArg List.length h
  have h1 : 0 < (Split a sep).length :=
    List.length_pos.2 (splitGo_ne_nil sep a [])
  have h2 : 0 < (Split b sep).length :=
    List.length_pos.2 (splitGo_ne_nil sep b [])
  simp only [List.length_append, List.length_singleton] at this
  omega

theorem Split_two (s mac bits : GoString) (sep : Nat) (h : Split s sep = [mac, bits]) :
    s = mac ++ sep :: bits ∧ sep ∉ mac ∧ sep ∉ bits := by
  have hj := Join_Split s sep
  rw [h] at hj
  simp only [Join] at hj
  have hm : sep ∉ mac := splitGo_pieces sep s [] mac (by simp) (by
    show mac ∈ Split s sep
    rw [h]; simp)
  have hb : sep ∉ bits := splitGo_pieces sep s [] bits (by simp) (by
    show bits ∈ Split s sep
    rw [h]; simp)
  exact ⟨by rw [← hj]; simp, hm, hb⟩

theorem isUpperHex_spec (c : Nat) (h : isUpperHex c = true) :
    c < 0x80 ∧ c ≠ colon ∧ c ≠ slash ∧ upperASCII c = c := by
  simp only [isUpperHex, Bool.or_eq_true, Bool.and_eq_true, decide_eq_true_eq] at h
  unfold colon slash upperASCII
  refine ⟨by omega, by omega, by omega, ?_⟩
  rw [if_neg (by omega)]

theorem isOctet_spec (s : GoString) (h : isOctet s = true) :
    ∃ a b, s = [a, b] ∧ isUpperHex a = true ∧ isUpperHex b = true := by
  unfold isOctet at h
  split at h
  · rename_i a b
    simp only [Bool.and_eq_true] at h
    exact ⟨a, b, rfl, h.1, h.2⟩
  · exact absurd h (by simp)

theorem isHexDigit_spec (s : GoString) (h : isHexDigit s = true) :
    ∃ a, s = [a] ∧ isUpperHex a = true := by
  unfold isHexDigit at h
  split at h
  · rename_i a
    exact ⟨a, rfl, h⟩
  · exact absurd h (by simp)

theorem isOctet_bytes (s : GoString) (h : isOctet s = true) :
    ∀ c ∈ s, isUpperHex c = true := by
  obtain ⟨a, b, rfl, ha, hb⟩ := isOctet_spec s h
  intro c hc
  simp only [List.mem_cons, List.mem_singleton, List.not_mem_nil, or_false] at hc
  rcases hc with rfl | rfl <;> assumption

theorem isHexDigit_bytes (s : GoString) (h : isHexDigit s = true) :
    ∀ c ∈ s, isUpperHex c = true := by
  obtain ⟨a, rfl, ha⟩ := isHexDigit_spec s h
  intro c hc
  simp only [List.mem_singleton] at hc
  rw [hc]; exact ha

theorem Split_cons_piece (a rest : GoString) (sep : Nat) (ha : sep ∉ a) :
    Split (a ++ sep :: rest) sep = a :: Split rest sep := by
  rw [Split_append, Split_of_not_mem sep a ha]; rfl

theorem isOctet_no_colon (s : GoString) (h : isOctet s = true) : colon ∉ s :=
  fun hc => (isUpperHex_spec colon (isOctet_bytes s h colon hc)).2.1 rfl

theorem isOctet_ne_nil (s : GoString) (h : isOctet s = true) : s ≠ [] := by
  obtain ⟨a, b, rfl, -, -⟩ := isOctet_spec s h
  simp

theorem str_colon : str ":" = [colon] := rfl

theorem normalize_of_no_slash (p : GoString) (h : slash ∉ p) :
    normalizeMACPrefix p = some p := by
  unfold normalizeMACPrefix
  have : Contains p slash = false := by simpa [Contains] using h
  simp [this]

/-- A field 0 of one of the three supported forms normalizes, without panic, to a key of
one of the three shapes. -/
theorem supportedSpecifier_normalizes (f0 : GoString) (h : supportedSpecifier f0 = true) :
    ∃ k, normalizeMACPrefix f0 = some k ∧ keyShape k = true := by
  unfold supportedSpecifier at h
  split at h
  · rename_i mac hmac
    obtain ⟨hs, rfl⟩ := Split_singleton f0 mac slash hmac
    refine ⟨mac, normalize_of_no_slash mac hs, ?_⟩
    unfold keyShape
    split at h
    · rename_i a b c habc
      rw [habc]; exact h
    · exact absurd h (by simp)
  · rename_i mac bits hsplit
    obtain ⟨rfl, hm, hb⟩ := Split_two f0 mac bits slash hsplit
    split at h
    · rename_i a b c d hparts
      simp only [Bool.and_eq_true, decide_eq_true_eq] at h
      obtain ⟨⟨⟨⟨hbits, ha⟩, hb'⟩, hc⟩, hd⟩ := h
      obtain ⟨d0, d1, rfl, hd0, -⟩ := isOctet_spec d hd
      refine ⟨a ++ colon :: (b ++ colon :: (c ++ colon :: [d0])), ?_, ?_⟩
      · unfold normalizeMACPrefix
        rw [contains_append_slash, hsplit]
        simp [hparts, hbits, sliceTo, sprintfColon, str_colon, Join,
          stringOfByte_ascii d0 (isUpperHex_spec d0 hd0).1]
      · unfold keyShape
        rw [Split_cons_piece _ _ _ (isOctet_no_colon a ha),
          Split_cons_piece _ _ _ (isOctet_no_colon b hb'),
          Split_cons_piece _ _ _ (isOctet_no_colon c hc),
          Split_of_not_mem colon [d0] (by
            simp only [List.mem_singleton]
            exact fun e => (isUpperHex_spec d0 hd0).2.1 e.symm)]
        simp [ha, hb', hc, isHexDigit, hd0]
    · rename_i a b c d e hparts
      simp only [Bool.and_eq_true, decide_eq_true_eq] at h
      obtain ⟨⟨⟨⟨⟨hbits, ha⟩, hb'⟩, hc⟩, hd⟩, he⟩ := h
      obtain ⟨e0, e1, rfl, he0, -⟩ := isOctet_spec e he
      refine ⟨a ++ colon :: (b ++ colon :: (c ++ colon :: (d ++ colon :: [e0]))), ?_, ?_⟩
      · unfold normalizeMACPrefix
        rw [contains_append_slash, hsplit]
        have h2836 : ¬ (str "36" = str "28") := by decide
        simp [hparts, hbits, h2836, sliceTo, sprintfColon, str_colon, Join,
          stringOfByte_ascii e0 (isUpperHex_spec e0 he0).1]
      · unfold keyShape
        rw [Split_cons_piece _ _ _ (isOctet_no_colon a ha),
          Split_cons_piece _ _ _ (isOctet_no_colon b hb'),
          Split_cons_piece _ _ _ (isOctet_no_colon c hc),
          Split_cons_piece _ _ _ (isOctet_no_colon d hd),
          Split_of_not_mem colon [e0] (by
            simp only [List.mem_singleton]
            exact fun e => (isUpperHex_spec e0 he0).2.1 e.symm)]
        simp [ha, hb', hc, hd, isHexDigit, he0]
    · exact absurd h (by simp)
  · exact absurd h (by simp)

theorem ToUpper_fixed (caseTable : Nat → Nat) (s : GoString)
    (h : ∀ c ∈ s, c < 0x80 ∧ upperASCII c = c) : ToUpper caseTable s = s := by
  unfold ToUpper
  have hall : s.all (fun c => decide (c < RuneSelf)) = true := by
    rw [List.all_eq_true]
    intro c hc
    simpa [RuneSelf] using (h c hc).1
  rw [if_pos hall]
  calc s.map upperASCII = s.map id := List.map_congr_left (fun c hc => (h c hc).2)
    _ = s := List.map_id s

/-- The segments that `Lookup` derives from a key of one of the three shapes are the
colon-separated parts of the key. -/
theorem segments_of_key (caseTable : Nat → Nat) (k : GoString)
    (hparts : ∀ p ∈ Split k colon, p ≠ [] ∧ ∀ c ∈ p, isUpperHex c = true) :
    segments caseTable k = Split k colon := by
  have hbytes : ∀ c ∈ k, c < 0x80 ∧ upperASCII c = c := by
    intro c hc
    rw [← Join_Split k colon] at hc
    rcases Join_bytes _ _ _ hc with h | ⟨p, hp, hcp⟩
    · simp only [List.mem_singleton] at h
      rw [h]; decide
    · have := isUpperHex_spec c ((hparts p hp).2 c hcp)
      exact ⟨this.1, this.2.2.2⟩
  unfold segments
  rw [ToUpper_fixed caseTable k hbytes, List.filter_eq_self]
  intro p hp
  simpa using (hparts p hp).1

/-- A key of one of the three shapes is reached by the address written as the key
itself. -/
theorem resolve_of_keyShape (caseTable : Nat → Nat) (m : Mapping) (k v : GoString)
    (hk : keyShape k = true) (hv : m.get k = some v) :
    resolve caseTable m k = Outcome.ok v := by
  have hj := Join_Split k colon
  unfold keyShape at hk
  split at hk
  · rename_i a b c hs
    simp only [Bool.and_eq_true] at hk
    obtain ⟨⟨ha, hb⟩, hc⟩ := hk
    have hseg : segments caseTable k = [a, b, c] := by
      rw [segments_of_key caseTable k, hs]
      intro p hp
      rw [hs] at hp
      simp only [List.mem_cons, List.mem_singleton, List.not_mem_nil, or_false] at hp
      rcases hp with rfl | rfl | rfl
      · exact ⟨isOctet_ne_nil _ ha, isOctet_bytes _ ha⟩
      · exact ⟨isOctet_ne_nil _ hb, isOctet_bytes _ hb⟩
      · exact ⟨isOctet_ne_nil _ hc, isOctet_bytes _ hc⟩
    have hkey : specKey24 [a, b, c] = k := by
      rw [← hj, hs]; simp [specKey24, str_colon]
    rw [resolve_eq_findSome, hseg]
    simp [specCandidates, List.findSome?, hkey, hv]
  · rename_i a b c d hs
    simp only [Bool.and_eq_true] at hk
    obtain ⟨⟨⟨ha, hb⟩, hc⟩, hd⟩ := hk
    obtain ⟨d0, rfl, hd0⟩ := isHexDigit_spec d hd
    have hseg : segments caseTable k = [a, b, c, [d0]] := by
      rw [segments_of_key caseTable k, hs]
      intro p hp
      rw [hs] at hp
      simp only [List.mem_cons, List.mem_singleton, List.not_mem_nil, or_false] at hp
      rcases hp with rfl | rfl | rfl | rfl
      · exact ⟨isOctet_ne_nil _ ha, isOctet_bytes _ ha⟩
      · exact ⟨isOctet_ne_nil _ hb, isOctet_bytes _ hb⟩
      · exact ⟨isOctet_ne_nil _ hc, isOctet_bytes _ hc⟩
      · exact ⟨by simp, isHexDigit_bytes _ hd⟩
    have hkey : specKey28 [a, b, c, [d0]] = k := by
      rw [← hj, hs]; simp [specKey28, str_colon, Join]
    rw [resolve_eq_findSome, hseg]
    simp [specCandidates, List.findSome?, hkey, hv]
  · rename_i a b c d e hs
    simp only [Bool.and_eq_true] at hk
    obtain ⟨⟨⟨⟨ha, hb⟩, hc⟩, hd⟩, he⟩ := hk
    obtain ⟨e0, rfl, he0⟩ := isHexDigit_spec e he
    have hseg : segments caseTable k = [a, b, c, d, [e0]] := by
      rw [segments_of_key caseTable k, hs]
      intro p hp
      rw [hs] at hp
      simp only [List.mem_cons, List.mem_singleton, List.not_mem_nil, or_false] at hp
      rcases hp with rfl | rfl | rfl | rfl | rfl
      · exact ⟨isOctet_ne_nil _ ha, isOctet_bytes _ ha⟩
      · exact ⟨isOctet_ne_nil _ hb, isOctet_bytes _ hb⟩
      · exact ⟨isOctet_ne_nil _ hc, isOctet_bytes _ hc⟩
      · exact ⟨isOctet_ne_nil _ hd, isOctet_bytes _ hd⟩
      · exact ⟨by simp, isHexDigit_bytes _ he⟩
    have hkey : specKey36 [a, b, c, d, [e0]] = k := by
      rw [← hj, hs]; simp [specKey36, str_colon, Join]
    rw [resolve_eq_findSome, hseg]
    simp [specCandidates, List.findSome?, hkey, hv]
  · exact absurd hk (by simp)

/-- C18, as stated, fails: the line `AA:BB:CC:DD/32 Foo` loads under the key
`AA:BB:CC:DD`, four octets, which is none of the three shapes, and no address reaches
the entry (neither a full address under it nor the key itself). -/
theorem updateDatabase_keeps_other_granularity :
    (UpdateDatabase otherBitsWorld cacheFile).1 = Outcome.ok ()
      ∧ (UpdateDatabase otherBitsWorld cacheFile).2.ouiData.get (str "AA:BB:CC:DD")
          = some (str "Foo")
      ∧ keyShape (str "AA:BB:CC:DD") = false
      ∧ resolve (fun r => r) (UpdateDatabase otherBitsWorld cacheFile).2.ouiData
          (str "AA:BB:CC:DD:EE:FF") = Outcome.error GoError.notFound
      ∧ resolve (fun r => r) (UpdateDatabase otherBitsWorld cacheFile).2.ouiData
          (str "AA:BB:CC:DD") = Outcome.error GoError.notFound := by
  decide

/-- C18, amended. When field 0 of every qualifying line of the source is a 3-octet prefix
`A:B:C`, a specifier `A:B:C:D/28` or a specifier `A:B:C:D:E/36`, octets in upper-case
hex, every key of the mapping that `UpdateDatabase` leaves has one of the three shapes
(3 octets, 3 octets and a hex digit, 4 octets and a hex digit), and every loaded entry
is reachable: the address written as the key resolves to its label. -/
theorem updateDatabase_supported_keys (caseTable : Nat → Nat) (w : World)
    (ouiFile : GoString) (file : FileContent) (hf : w.files ouiFile = some file)
    (hsrc : ∀ line ∈ qualifyingLines file, supportedSpecifier (field line 0) = true) :
    ∀ k v, (UpdateDatabase w ouiFile).2.ouiData.get k = some v →
      keyShape k = true
        ∧ resolve caseTable (UpdateDatabase w ouiFile).2.ouiData k = Outcome.ok v := by
  intro k v hkv
  have hshape : keyShape k = true := by
    refine updateDatabase_keys (fun k => keyShape k = true) w ouiFile file hf ?_ k
      (by rw [hkv]; rfl)
    intro line hl k' hk'
    obtain ⟨k'', hn, hs⟩ := supportedSpecifier_normalizes (field line 0) (hsrc line hl)
    have : k'' = k' := by
      have h1 : normalizedKey line = some k'' := hn
      rw [h1] at hk'
      exact Option.some.inj hk'
    rw [← this]; exact hs
  exact ⟨hshape, resolve_of_keyShape caseTable _ k v hshape hkv⟩

/-- C18, amended, on the sample data of the tests, at the entry `8C:1F:64:DC:6`. -/
theorem updateDatabase_supported_keys_witness :
    keyShape (str "8C:1F:64:DC:6") = true
      ∧ resolve (fun r => r) (UpdateDatabase testWorld testFile).2.ouiData
          (str "8C:1F:64:DC:6") = Outcome.ok (str "R&K") :=
  updateDatabase_supported_keys (fun r => r) testWorld testFile ⟨sampleData, false⟩
    (by simp only [testWorld, if_true]) (by decide) (str "8C:1F:64:DC:6") (str "R&K")
    (by decide)

end OuiDb
